import Mathlib

/-!
Verification development for the png-metadata library (src/mod.ts).

The embedding models JS Uint8Array contents as lists of natural numbers
(each element intended to be < 256) and JS strings as lists of UTF-16
code units (charCodeAt values).  Fallible operations return Except.
The chunk-scanning loop of extractChunks is written with an explicit
fuel parameter (initialised to the buffer length) so that it is
structurally recursive; fuel exhaustion is proved unreachable for the
initial fuel because every iteration advances the read index by at
least 12 while consuming one unit of fuel.

The CRC32 collaborator (library import, out of scope of the repository)
is the standard reflected CRC-32 with polynomial 0xEDB88320, initial
value 0xFFFFFFFF and final complement, modelled bit-exactly on Nat.
The TypeScript code compares checksums through signed Int32 views of
the same four big-endian bytes; equality of the signed views is
equivalent to equality of the unsigned values, which is what the model
compares.
-/

set_option maxHeartbeats 1000000

deriving instance DecidableEq for Except

namespace PngMeta

/-- Byte sequences (contents of a JS Uint8Array). -/
abbrev Bytes := List Nat

/-- JS strings as lists of UTF-16 code units. -/
abbrev Str := List Nat

/-- A PNG chunk record (ChunkData in mod.ts): 4-character type name and payload. -/
structure ChunkData where
  name : Str
  data : Bytes
deriving DecidableEq

/-- Error taxonomy: one constructor per distinct throw condition of mod.ts.
typeErrorUndefined models the implicit JS TypeError raised when the clear
loop of insertMetadata reads chunks[-1].name on an empty chunk array. -/
inductive PngError where
  | invalidHeader (likelyLineEnding : Bool)
  | missingIHDR
  | truncatedFile
  | checksumMismatch (name : Str)
  | invalidCharacter
  | keywordTooLong
  | typeErrorUndefined
deriving DecidableEq

/-! ## CRC32 (external collaborator) -/

/-- The reflected CRC-32 polynomial. -/
def crcPoly : Nat := 0xEDB88320

/-- One bit step of CRC-32: shift right, conditionally XOR the polynomial. -/
def crcStep (r : Nat) : Nat :=
  if r &&& 1 = 1 then (r >>> 1) ^^^ crcPoly else r >>> 1

/-- Eight bit steps: the CRC-32 table entry for index n (n < 256). -/
def crcTable (n : Nat) : Nat :=
  crcStep (crcStep (crcStep (crcStep (crcStep (crcStep (crcStep (crcStep n)))))))

/-- Table-driven byte update: crc := (crc >>> 8) ^^^ table[(crc ^^^ byte) &&& 0xFF]. -/
def crcUpdate (c b : Nat) : Nat :=
  (c >>> 8) ^^^ crcTable ((c ^^^ b) &&& 255)

/-- CRC-32 of a byte sequence. -/
def crc32 (bytes : Bytes) : Nat :=
  (bytes.foldl crcUpdate 0xFFFFFFFF) ^^^ 0xFFFFFFFF

/-! ## Byte-level access -/

/-- Read data[i]; out-of-range reads model the JS undefined-to-0 coercion
that happens when such a value is stored into a Uint8Array element. -/
def byteAt (d : Bytes) (i : Nat) : Nat := d.getD i 0

/-- Big-endian 32-bit read via the uint8/uint32 scratch views
(uint8[3] = data[i], ..., uint8[0] = data[i+3]). -/
def readU32BE (d : Bytes) (i : Nat) : Nat :=
  byteAt d i * 2 ^ 24 + byteAt d (i + 1) * 2 ^ 16 + byteAt d (i + 2) * 2 ^ 8 + byteAt d (i + 3)

/-- The four big-endian bytes of a 32-bit number (value taken mod 2^32,
matching the uint32 scratch view store). -/
def u32BEbytes (n : Nat) : Bytes :=
  [n / 2 ^ 24 % 256, n / 2 ^ 16 % 256, n / 2 ^ 8 % 256, n % 256]

/-- The 4 type bytes starting at offset i. -/
def typeAt (d : Bytes) (i : Nat) : Str :=
  [byteAt d i, byteAt d (i + 1), byteAt d (i + 2), byteAt d (i + 3)]

/-! ## Chunk type names (byte values of the ASCII names) -/

def iHDRName : Str := [0x49, 0x48, 0x44, 0x52]
def iENDName : Str := [0x49, 0x45, 0x4E, 0x44]
def iDATName : Str := [0x49, 0x44, 0x41, 0x54]
def tEXtName : Str := [0x74, 0x45, 0x58, 0x74]
def pHYsName : Str := [0x70, 0x48, 0x59, 0x73]

/-! ## Chunk extraction (extractChunks in mod.ts) -/

/-- The while loop of extractChunks.  Each iteration reads the 4-byte
big-endian length, the 4 type bytes, the payload, and the stored CRC,
compares the recomputed CRC32 of type ++ payload against the stored
value, and either stops (IEND), fails, or appends the chunk and
continues at idx + 12 + length.  The fuel argument makes the recursion
structural; when it runs out the result coincides with the loop-exit
result (truncatedFile), and extractChunks supplies enough fuel for the
exhaustion case to be unreachable. -/
def extractLoop (data : Bytes) (idx : Nat) (chunks : List ChunkData) :
    Nat → Except PngError (List ChunkData)
  | 0 => .error .truncatedFile
  | fuel + 1 =>
    if idx < data.length then
      let len := readU32BE data idx
      let name := typeAt data (idx + 4)
      if chunks = [] ∧ name ≠ iHDRName then .error .missingIHDR
      else if name = iENDName then .ok (chunks ++ [⟨name, []⟩])
      else
        let payload := (List.range len).map fun i => byteAt data (idx + 8 + i)
        let crcActual := readU32BE data (idx + 8 + len)
        if crc32 (name ++ payload) ≠ crcActual then .error (.checksumMismatch name)
        else extractLoop data (idx + 12 + len) (chunks ++ [⟨name, payload⟩]) fuel
    else .error .truncatedFile

/-- extractChunks: the eight signature byte checks in source order (bytes 4,
5 and 7 carry the line-ending diagnosis), then the chunk scan from index 8. -/
def extractChunks (data : Bytes) : Except PngError (List ChunkData) :=
  if byteAt data 0 ≠ 0x89 then .error (.invalidHeader false)
  else if byteAt data 1 ≠ 0x50 then .error (.invalidHeader false)
  else if byteAt data 2 ≠ 0x4E then .error (.invalidHeader false)
  else if byteAt data 3 ≠ 0x47 then .error (.invalidHeader false)
  else if byteAt data 4 ≠ 0x0D then .error (.invalidHeader true)
  else if byteAt data 5 ≠ 0x0A then .error (.invalidHeader true)
  else if byteAt data 6 ≠ 0x1A then .error (.invalidHeader false)
  else if byteAt data 7 ≠ 0x0A then .error (.invalidHeader true)
  else extractLoop data 8 [] data.length

/-! ## Chunk encoding (encodeChunks in mod.ts) -/

/-- name.charCodeAt(i) as stored into a Uint8Array slot: the code unit
taken mod 256, with out-of-range access (NaN) coerced to 0. -/
def nameByte (c : ChunkData) (i : Nat) : Nat := c.name.getD i 0 % 256

/-- The four effective type bytes of a chunk as emitted by encodeChunks. -/
def nameBytes (c : ChunkData) : Bytes :=
  [nameByte c 0, nameByte c 1, nameByte c 2, nameByte c 3]

/-- Serialization of one chunk: length (u32 BE), type bytes, payload,
CRC32 of type ++ payload (u32 BE, emitted via the int32 scratch view,
which produces the same four bytes). -/
def encodeChunk (c : ChunkData) : Bytes :=
  u32BEbytes c.data.length ++ nameBytes c ++ c.data ++ u32BEbytes (crc32 (nameBytes c ++ c.data))

/-- The fixed 8-byte PNG signature. -/
def pngSignature : Bytes := [0x89, 0x50, 0x4E, 0x47, 0x0D, 0x0A, 0x1A, 0x0A]

/-- Serialization of a chunk list without the signature. -/
def serializeFrom (chunks : List ChunkData) : Bytes :=
  (chunks.map encodeChunk).flatten

/-- encodeChunks: signature then each chunk in order. -/
def encodeChunks (chunks : List ChunkData) : Bytes :=
  pngSignature ++ serializeFrom chunks

/-! ## Text chunk codec (textEncode / textDecode in mod.ts) -/

/-- The JS regex test Latin1Regex.test(s) for the anchored class
[\x00-\xFF]+ over UTF-16 units: nonempty and every unit at most 255. -/
def latin1Test (s : Str) : Bool := !s.isEmpty && s.all (· ≤ 255)

/-- textEncode: Latin-1 check (only when content is nonempty), 80-char
keyword limit, then the byte-building loops which reject a 0 code unit
in keyword or content; stored bytes are code units mod 256 (Uint8Array
store). -/
def textEncode (keyword content : Str) (chunkName : Str) : Except PngError ChunkData :=
  if content.length ≠ 0 ∧ (¬ latin1Test keyword ∨ ¬ latin1Test content) then
    .error .invalidCharacter
  else if 80 ≤ keyword.length then .error .keywordTooLong
  else if keyword.contains 0 then .error .invalidCharacter
  else if content.contains 0 then .error .invalidCharacter
  else .ok ⟨chunkName, keyword.map (· % 256) ++ 0 :: content.map (· % 256)⟩

/-- The scanning loop of textDecode: accumulate the keyword until the
first 0 byte, then accumulate the text; a second 0 byte is an error. -/
def textDecodeLoop : Bytes → Bool → Str → Str → Except PngError (Str × Str)
  | [], _, name, text => .ok (name, text)
  | c :: rest, naming, name, text =>
    if naming then
      if c ≠ 0 then textDecodeLoop rest true (name ++ [c]) text
      else textDecodeLoop rest false name text
    else
      if c ≠ 0 then textDecodeLoop rest false name (text ++ [c])
      else .error .invalidCharacter

/-- textDecode on a payload byte sequence. -/
def textDecode (bin : Bytes) : Except PngError (Str × Str) :=
  textDecodeLoop bin true [] []

/-- Decidable success test for textDecode. -/
def textDecodeOk (bin : Bytes) : Bool :=
  match textDecode bin with
  | .ok _ => true
  | .error _ => false

/-! ## Metadata mapper (readMetadata / insertMetadata / writeMetadata) -/

/-- readUint32 in mod.ts: 0 | (b1 << 24) | ... produces a signed Int32. -/
def toInt32 (n : Nat) : Int :=
  if n % 2 ^ 32 < 2 ^ 31 then ((n % 2 ^ 32 : Nat) : Int) else ((n % 2 ^ 32 : Nat) : Int) - 2 ^ 32

/-- readUint32 applied to chunk payload bytes. -/
def readUint32 (d : Bytes) (i : Nat) : Int :=
  toInt32 (readU32BE d i)

/-- JS object property assignment m[k] = v on the tEXt record: overwrite
in place when the key exists, append otherwise. -/
def setEntry (m : List (Str × Str)) (k v : Str) : List (Str × Str) :=
  if m.any (fun p => p.1 == k) then m.map (fun p => if p.1 = k then (k, v) else p)
  else m ++ [(k, v)]

/-- result[name] = true for a catch-all chunk type flag. -/
def addFlag (fs : List Str) (n : Str) : List Str :=
  if fs.contains n then fs else fs ++ [n]

/-- The structured metadata record produced by readMetadata. -/
structure PngMetadataOut where
  tEXt : Option (List (Str × Str))
  pHYs : Option (Int × Int × Nat)
  flags : List Str
deriving DecidableEq

/-- Processing of one chunk inside readMetadata's forEach.  For a
malformed pHYs payload shorter than 9 bytes the unit field reads as 0
where JS yields undefined; no claim depends on that corner. -/
def readChunkMeta (r : PngMetadataOut) (c : ChunkData) : Except PngError PngMetadataOut :=
  if c.name = tEXtName then
    match textDecode c.data with
    | .error e => .error e
    | .ok kt => .ok ⟨some (setEntry (r.tEXt.getD []) kt.1 kt.2), r.pHYs, r.flags⟩
  else if c.name = pHYsName then
    .ok ⟨r.tEXt, some (readUint32 c.data 0, readUint32 c.data 4, byteAt c.data 8), r.flags⟩
  else .ok ⟨r.tEXt, r.pHYs, addFlag r.flags c.name⟩

/-- readMetadata: extract, then fold the chunk list in order. -/
def readMetadata (buffer : Bytes) : Except PngError PngMetadataOut :=
  match extractChunks buffer with
  | .error e => .error e
  | .ok chunks => chunks.foldlM readChunkMeta ⟨none, none, []⟩

/-- Lookup of a keyword in the tEXt record of a metadata result. -/
def tEXtLookup (r : PngMetadataOut) (k : Str) : Option Str :=
  ((r.tEXt.getD []).find? (fun p => p.1 == k)).map (fun p => p.2)

/-- The pHYs record supplied to writeMetadata / insertMetadata. -/
structure PhysSpec where
  x : Nat
  y : Nat
  unit : Nat
deriving DecidableEq

/-- The metadata argument of insertMetadata / writeMetadata.  The tEXt
mapping is a JS object; its key iteration order is insertion order,
modelled as an association list. -/
structure MetadataSpec where
  tEXt : Option (List (Str × Str))
  pHYs : Option PhysSpec
  clear : Bool
deriving DecidableEq

/-- Keep set of the clear loop: IHDR, IDAT, IEND. -/
def keepName (n : Str) : Bool := n == iHDRName || n == iDATName || n == iENDName

/-- One body execution of the clear loop at index i: keep the chunk when
its name is in the keep set, otherwise chunks.splice(i, 1). -/
def clearBody (l : List ChunkData) (i : Nat) : List ChunkData :=
  match l.get? i with
  | some c => if keepName c.name then l else l.eraseIdx i
  | none => l

/-- Body sweep of the clear loop for (let i = chunks.length - 1; i--; ):
the body runs for i = chunks.length - 2 down to 0, removing (splice)
every inspected chunk whose name is not in the keep set. -/
def clearLoop (l : List ChunkData) : Nat → List ChunkData
  | 0 => clearBody l 0
  | j + 1 => clearLoop (clearBody l (j + 1)) j

/-- The clear branch of insertMetadata.  On an empty chunk array the JS
loop condition i-- passes with i = -1 and chunks[-1].name throws a
TypeError; a singleton array makes the condition fail immediately;
otherwise the body sweep runs from index length - 2 down to 0. -/
def clearChunks (l : List ChunkData) : Except PngError (List ChunkData) :=
  if l.length = 0 then .error .typeErrorUndefined
  else if l.length = 1 then .ok l
  else .ok (clearLoop l (l.length - 2))

/-- chunks.splice(-1, 0, c): insert immediately before the last element. -/
def insertBeforeLast (l : List ChunkData) (c : ChunkData) : List ChunkData :=
  l.take (l.length - 1) ++ c :: l.drop (l.length - 1)

/-- The 9-byte pHYs payload built by insertMetadata (writeUInt32 twice,
then the unit byte; Uint8Array stores take the value mod 256). -/
def physPayload (p : PhysSpec) : Bytes :=
  u32BEbytes p.x ++ u32BEbytes p.y ++ [p.unit % 256]

/-- chunks.find(name == pHYs) followed by the in-place payload overwrite:
replace the data of the first pHYs chunk. -/
def replaceFirstPhys (l : List ChunkData) (d : Bytes) : List ChunkData :=
  match l with
  | [] => []
  | c :: rest => if c.name = pHYsName then ⟨c.name, d⟩ :: rest else c :: replaceFirstPhys rest d

/-- insertMetadata: optional clear sweep, insertion of each tEXt entry
(insertion order) before the last chunk, then the pHYs overwrite or the
splice(1, 0, chunk) insertion at index 1. -/
def insertMetadata (chunks : List ChunkData) (m : MetadataSpec) :
    Except PngError (List ChunkData) := do
  let c1 ← if m.clear then clearChunks chunks else pure chunks
  let c2 ← match m.tEXt with
    | none => pure c1
    | some entries =>
      entries.foldlM (fun acc kv => do
        let tc ← textEncode kv.1 kv.2 tEXtName
        pure (insertBeforeLast acc tc)) c1
  match m.pHYs with
  | none => pure c2
  | some p =>
    if c2.any (fun c => c.name == pHYsName) then
      pure (replaceFirstPhys c2 (physPayload p))
    else
      pure (c2.take 1 ++ ⟨pHYsName, physPayload p⟩ :: c2.drop 1)

/-- writeMetadata: extract, insertMetadata, encode. -/
def writeMetadata (buffer : Bytes) (m : MetadataSpec) : Except PngError Bytes := do
  let chunks ← extractChunks buffer
  let chunks2 ← insertMetadata chunks m
  pure (encodeChunks chunks2)

/-! ## Validity predicates used in claim hypotheses -/

/-- A chunk representable as extracted data: 4 type bytes, byte-valued
payload whose length fits the 32-bit length field. -/
def validChunk (c : ChunkData) : Prop :=
  c.name.length = 4 ∧ (∀ b ∈ c.name, b < 256) ∧ (∀ b ∈ c.data, b < 256) ∧
    c.data.length < 2 ^ 32

instance (c : ChunkData) : Decidable (validChunk c) := by
  unfold validChunk; infer_instance

/-- A well-formed chunk sequence: nonempty, first chunk IHDR, terminal
IEND with empty payload, no interior IEND, every chunk valid. -/
def validChunkSeq (cs : List ChunkData) : Prop :=
  (∀ c ∈ cs, validChunk c) ∧ (∀ c ∈ cs.dropLast, c.name ≠ iENDName) ∧
    cs.getLast? = some ⟨iENDName, []⟩ ∧ (cs.head?.map ChunkData.name = some iHDRName)

instance (cs : List ChunkData) : Decidable (validChunkSeq cs) := by
  unfold validChunkSeq; infer_instance

/-- A well-formed PNG byte sequence: the serialization of a well-formed
chunk sequence (valid signature, IHDR first, terminal IEND with empty
payload and correct CRC, every stored checksum equal to the CRC32 of
type ++ payload, no trailing bytes). -/
def WellFormedPng (bytes : Bytes) : Prop :=
  ∃ cs, validChunkSeq cs ∧ bytes = encodeChunks cs

/-- Index of the first signature byte check that fails (8 when all pass),
in source check order. -/
def firstMismatch (d : Bytes) : Nat :=
  if byteAt d 0 ≠ 0x89 then 0
  else if byteAt d 1 ≠ 0x50 then 1
  else if byteAt d 2 ≠ 0x4E then 2
  else if byteAt d 3 ≠ 0x47 then 3
  else if byteAt d 4 ≠ 0x0D then 4
  else if byteAt d 5 ≠ 0x0A then 5
  else if byteAt d 6 ≠ 0x1A then 6
  else if byteAt d 7 ≠ 0x0A then 7
  else 8

/-- Flip bit t of the byte at position j. -/
def flipBit (l : Bytes) (j t : Nat) : Bytes :=
  l.set j (l.getD j 0 ^^^ 1 <<< t)

/-- A valid text entry per the data model: keyword 1 to 79 Latin-1 code
units without 0, text Latin-1 without 0. -/
def entryOk (e : Str × Str) : Prop :=
  1 ≤ e.1.length ∧ e.1.length ≤ 79 ∧ (∀ c ∈ e.1, c ≤ 255 ∧ c ≠ 0) ∧
    (∀ c ∈ e.2, c ≤ 255 ∧ c ≠ 0)

instance (e : Str × Str) : Decidable (entryOk e) := by
  unfold entryOk; infer_instance

/-- The encoded chunk of a valid text entry. -/
def encEntry (e : Str × Str) : ChunkData :=
  ⟨tEXtName, e.1 ++ 0 :: e.2⟩

/-! ## Bitwise helper lemmas -/

theorem xor_shiftRight_distrib (a b n : Nat) : (a ^^^ b) >>> n = a >>> n ^^^ b >>> n := by
  apply Nat.eq_of_testBit_eq
  intro i
  simp [Nat.testBit_shiftRight, Nat.testBit_xor]

theorem xor_cancel_left_self (p x y : Nat) : (x ^^^ p) ^^^ (y ^^^ p) = x ^^^ y := by
  apply Nat.eq_of_testBit_eq
  intro i
  simp only [Nat.testBit_xor]
  cases x.testBit i <;> cases y.testBit i <;> cases p.testBit i <;> rfl

theorem xor_rearrange4 (a b c d : Nat) : (a ^^^ b) ^^^ (c ^^^ d) = (a ^^^ c) ^^^ (b ^^^ d) := by
  apply Nat.eq_of_testBit_eq
  intro i
  simp only [Nat.testBit_xor]
  cases a.testBit i <;> cases b.testBit i <;> cases c.testBit i <;> cases d.testBit i <;> rfl

theorem xor_ne_self_of_ne_zero {a e : Nat} (he : e ≠ 0) : a ^^^ e ≠ a := by
  intro h
  apply he
  have : (a ^^^ e) ^^^ a = a ^^^ a := by rw [h]
  rwa [Nat.xor_comm a e, Nat.xor_cancel_right, Nat.xor_self] at this

theorem land255_eq_mod (x : Nat) : x &&& 255 = x % 256 := by
  apply Nat.eq_of_testBit_eq
  intro i
  rw [show (256 : Nat) = 2 ^ 8 from rfl, Nat.testBit_mod_two_pow,
    show (255 : Nat) = 2 ^ 8 - 1 from rfl, Nat.testBit_and, Nat.testBit_two_pow_sub_one]
  cases x.testBit i <;> simp [Bool.and_comm]

theorem land255_of_lt {x : Nat} (h : x < 256) : x &&& 255 = x := by
  rw [land255_eq_mod, Nat.mod_eq_of_lt h]

theorem byte_decompose (d : Nat) : (d &&& 255) ^^^ ((d >>> 8) <<< 8) = d := by
  apply Nat.eq_of_testBit_eq
  intro i
  rw [Nat.testBit_xor, Nat.testBit_and, show (255 : Nat) = 2 ^ 8 - 1 from rfl,
    Nat.testBit_two_pow_sub_one, Nat.testBit_shiftLeft]
  by_cases h : i < 8
  · simp [h, Nat.not_le.mpr h]
  · have h8 : 8 ≤ i := Nat.not_lt.mp h
    rw [Nat.testBit_shiftRight, show 8 + (i - 8) = i from by omega]
    simp [h, h8]

/-! ## CRC32 lemmas -/

theorem crcPoly_lt : crcPoly < 2 ^ 32 := by norm_num [crcPoly]

theorem crcStep_lt {r : Nat} (h : r < 2 ^ 32) : crcStep r < 2 ^ 32 := by
  unfold crcStep
  have h1 : r >>> 1 < 2 ^ 32 :=
    lt_of_le_of_lt (by rw [Nat.shiftRight_eq_div_pow]; exact Nat.div_le_self r 2) h
  split
  · exact Nat.xor_lt_two_pow h1 crcPoly_lt
  · exact h1

theorem crcTable_lt {n : Nat} (h : n < 2 ^ 32) : crcTable n < 2 ^ 32 := by
  unfold crcTable
  exact crcStep_lt (crcStep_lt (crcStep_lt (crcStep_lt
    (crcStep_lt (crcStep_lt (crcStep_lt (crcStep_lt h)))))))

theorem crcUpdate_lt {c : Nat} (b : Nat) (h : c < 2 ^ 32) : crcUpdate c b < 2 ^ 32 := by
  unfold crcUpdate
  have h1 : c >>> 8 < 2 ^ 32 :=
    lt_of_le_of_lt (by rw [Nat.shiftRight_eq_div_pow]; exact Nat.div_le_self c (2 ^ 8)) h
  have h2 : (c ^^^ b) &&& 255 < 2 ^ 32 := by
    have hz : (c ^^^ b) &&& 255 ≤ 255 := Nat.and_le_right
    have h32 : (2 : Nat) ^ 32 = 4294967296 := by norm_num
    omega
  exact Nat.xor_lt_two_pow h1 (crcTable_lt h2)

theorem foldl_crcUpdate_lt (l : Bytes) : ∀ c : Nat, c < 2 ^ 32 →
    l.foldl crcUpdate c < 2 ^ 32 := by
  induction l with
  | nil => intro c h; exact h
  | cons x xs ih => intro c h; exact ih (crcUpdate c x) (crcUpdate_lt x h)

theorem crc32_lt (l : Bytes) : crc32 l < 2 ^ 32 := by
  unfold crc32
  exact Nat.xor_lt_two_pow (foldl_crcUpdate_lt l 0xFFFFFFFF (by norm_num)) (by norm_num)

theorem crcStep_xor (a b : Nat) : crcStep (a ^^^ b) = crcStep a ^^^ crcStep b := by
  have hab : (a ^^^ b) &&& 1 = (a &&& 1) ^^^ (b &&& 1) := Nat.and_xor_distrib_right
  have hsr := xor_shiftRight_distrib a b 1
  have ha01 : a &&& 1 = 0 ∨ a &&& 1 = 1 := by
    rw [Nat.and_one_is_mod]; exact Nat.mod_two_eq_zero_or_one a
  have hb01 : b &&& 1 = 0 ∨ b &&& 1 = 1 := by
    rw [Nat.and_one_is_mod]; exact Nat.mod_two_eq_zero_or_one b
  unfold crcStep
  rcases ha01 with h1 | h1 <;> rcases hb01 with h2 | h2
  · rw [if_neg (by omega : ¬a &&& 1 = 1), if_neg (by omega : ¬b &&& 1 = 1),
      if_neg (by rw [hab, h1, h2]; decide), hsr]
  · rw [if_neg (by omega : ¬a &&& 1 = 1), if_pos h2,
      if_pos (by rw [hab, h1, h2]; decide), hsr, Nat.xor_assoc]
  · rw [if_pos h1, if_neg (by omega : ¬b &&& 1 = 1),
      if_pos (by rw [hab, h1, h2]; decide), hsr, Nat.xor_assoc,
      Nat.xor_comm (b >>> 1) crcPoly, ← Nat.xor_assoc]
  · rw [if_pos h1, if_pos h2, if_neg (by rw [hab, h1, h2]; decide), hsr]
    exact (xor_cancel_left_self crcPoly (a >>> 1) (b >>> 1)).symm

theorem crcTable_xor (a b : Nat) : crcTable (a ^^^ b) = crcTable a ^^^ crcTable b := by
  unfold crcTable
  rw [crcStep_xor, crcStep_xor, crcStep_xor, crcStep_xor, crcStep_xor, crcStep_xor,
    crcStep_xor, crcStep_xor]

theorem crcStep_eq_zero {r : Nat} (hlt : r < 2 ^ 32) (h : crcStep r = 0) : r = 0 := by
  unfold crcStep at h
  have hr2 : r >>> 1 = r / 2 := by simp [Nat.shiftRight_eq_div_pow]
  have h32 : (2 : Nat) ^ 32 = 4294967296 := by norm_num
  by_cases hodd : r &&& 1 = 1
  · rw [if_pos hodd] at h
    have hp : r >>> 1 = crcPoly := Nat.xor_eq_zero.mp h
    rw [hr2] at hp
    have hp' : r / 2 = 3988292384 := hp.trans (by norm_num [crcPoly])
    omega
  · rw [if_neg hodd] at h
    rw [hr2] at h
    have := Nat.and_one_is_mod r
    omega

theorem crcTable_eq_zero {n : Nat} (hlt : n < 2 ^ 32) (h : crcTable n = 0) : n = 0 := by
  unfold crcTable at h
  have l1 := crcStep_lt hlt
  have l2 := crcStep_lt l1
  have l3 := crcStep_lt l2
  have l4 := crcStep_lt l3
  have l5 := crcStep_lt l4
  have l6 := crcStep_lt l5
  have l7 := crcStep_lt l6
  exact crcStep_eq_zero hlt (crcStep_eq_zero l1 (crcStep_eq_zero l2 (crcStep_eq_zero l3
    (crcStep_eq_zero l4 (crcStep_eq_zero l5 (crcStep_eq_zero l6 (crcStep_eq_zero l7 h)))))))

theorem crcStep_shiftLeft (m k : Nat) : crcStep (m <<< (k + 1)) = m <<< k := by
  unfold crcStep
  have heven : m <<< (k + 1) &&& 1 = 0 := by
    rw [Nat.and_one_is_mod, Nat.shiftLeft_eq, pow_succ, ← Nat.mul_assoc]
    exact Nat.mul_mod_left (m * 2 ^ k) 2
  rw [if_neg (by omega)]
  rw [Nat.shiftLeft_eq, Nat.shiftLeft_eq, Nat.shiftRight_eq_div_pow, pow_succ, ← Nat.mul_assoc]
  norm_num

theorem crcTable_shiftLeft8 (m : Nat) : crcTable (m <<< 8) = m := by
  unfold crcTable
  rw [show (8 : Nat) = 7 + 1 from rfl, crcStep_shiftLeft,
    show (7 : Nat) = 6 + 1 from rfl, crcStep_shiftLeft,
    show (6 : Nat) = 5 + 1 from rfl, crcStep_shiftLeft,
    show (5 : Nat) = 4 + 1 from rfl, crcStep_shiftLeft,
    show (4 : Nat) = 3 + 1 from rfl, crcStep_shiftLeft,
    show (3 : Nat) = 2 + 1 from rfl, crcStep_shiftLeft,
    show (2 : Nat) = 1 + 1 from rfl, crcStep_shiftLeft,
    show (1 : Nat) = 0 + 1 from rfl, crcStep_shiftLeft]
  exact Nat.shiftLeft_zero

theorem crcTable_split (d : Nat) : crcTable d = (d >>> 8) ^^^ crcTable (d &&& 255) := by
  conv_lhs => rw [← byte_decompose d]
  rw [crcTable_xor, crcTable_shiftLeft8, Nat.xor_comm]

theorem lfun_ne_zero {d : Nat} (hlt : d < 2 ^ 32) (hne : d ≠ 0) :
    (d >>> 8) ^^^ crcTable (d &&& 255) ≠ 0 := by
  rw [← crcTable_split]
  intro h
  exact hne (crcTable_eq_zero hlt h)

theorem crcUpdate_xor_left (c d b : Nat) :
    crcUpdate (c ^^^ d) b = crcUpdate c b ^^^ ((d >>> 8) ^^^ crcTable (d &&& 255)) := by
  unfold crcUpdate
  have harg : ((c ^^^ d) ^^^ b) &&& 255 = ((c ^^^ b) &&& 255) ^^^ (d &&& 255) := by
    rw [Nat.xor_assoc, Nat.xor_comm d b, ← Nat.xor_assoc, Nat.and_xor_distrib_right]
  rw [harg, crcTable_xor, xor_shiftRight_distrib, xor_rearrange4]

theorem crcUpdate_ne {c c' : Nat} (b : Nat) (hne : c ≠ c') (hc : c < 2 ^ 32)
    (hc' : c' < 2 ^ 32) : crcUpdate c b ≠ crcUpdate c' b := by
  have hd : c' = c ^^^ (c ^^^ c') := by
    rw [← Nat.xor_assoc, Nat.xor_self, Nat.zero_xor]
  have hdne : c ^^^ c' ≠ 0 := fun h => hne (Nat.xor_eq_zero.mp h)
  have hdlt : c ^^^ c' < 2 ^ 32 := Nat.xor_lt_two_pow hc hc'
  rw [hd, crcUpdate_xor_left]
  exact fun h => xor_ne_self_of_ne_zero (lfun_ne_zero hdlt hdne) h.symm

theorem foldl_crcUpdate_ne (l : Bytes) : ∀ c c' : Nat, c ≠ c' → c < 2 ^ 32 → c' < 2 ^ 32 →
    l.foldl crcUpdate c ≠ l.foldl crcUpdate c' := by
  induction l with
  | nil => intro c c' h _ _; exact h
  | cons x xs ih =>
    intro c c' h hc hc'
    exact ih (crcUpdate c x) (crcUpdate c' x) (crcUpdate_ne x h hc hc')
      (crcUpdate_lt x hc) (crcUpdate_lt x hc')

theorem crcUpdate_byte_xor (c b e : Nat) :
    crcUpdate c (b ^^^ e) = crcUpdate c b ^^^ crcTable (e &&& 255) := by
  unfold crcUpdate
  have harg : (c ^^^ (b ^^^ e)) &&& 255 = ((c ^^^ b) &&& 255) ^^^ (e &&& 255) := by
    rw [← Nat.xor_assoc, Nat.and_xor_distrib_right]
  rw [harg, crcTable_xor, Nat.xor_assoc]

theorem crc32_flip_ne' (l1 l2 : Bytes) {b b' : Nat} (hne : b ≠ b') (hb : b < 256)
    (hb' : b' < 256) : crc32 (l1 ++ b :: l2) ≠ crc32 (l1 ++ b' :: l2) := by
  unfold crc32
  intro h
  have hinj : (l1 ++ b :: l2).foldl crcUpdate 0xFFFFFFFF
      = (l1 ++ b' :: l2).foldl crcUpdate 0xFFFFFFFF := by
    have h1 := Nat.xor_cancel_right 0xFFFFFFFF ((l1 ++ b :: l2).foldl crcUpdate 0xFFFFFFFF)
    have h2 := Nat.xor_cancel_right 0xFFFFFFFF ((l1 ++ b' :: l2).foldl crcUpdate 0xFFFFFFFF)
    rw [← h1, ← h2, h]
  rw [List.foldl_append, List.foldl_append] at hinj
  set c := l1.foldl crcUpdate 0xFFFFFFFF with hc
  have hclt : c < 2 ^ 32 := foldl_crcUpdate_lt l1 0xFFFFFFFF (by norm_num)
  have he : b' = b ^^^ (b ^^^ b') := by rw [← Nat.xor_assoc, Nat.xor_self, Nat.zero_xor]
  have hene : b ^^^ b' ≠ 0 := fun hz => hne (Nat.xor_eq_zero.mp hz)
  have helt : b ^^^ b' < 256 := by
    have h8 : (2 : Nat) ^ 8 = 256 := by norm_num
    have hb8 : b < 2 ^ 8 := by rw [h8]; exact hb
    have hb'8 : b' < 2 ^ 8 := by rw [h8]; exact hb'
    have := Nat.xor_lt_two_pow hb8 hb'8
    omega
  have hstep : crcUpdate c b' = crcUpdate c b ^^^ crcTable (b ^^^ b') := by
    conv_lhs => rw [he]
    rw [crcUpdate_byte_xor, land255_of_lt helt]
  have htne : crcTable (b ^^^ b') ≠ 0 := fun hz =>
    hene (crcTable_eq_zero (lt_trans helt (by norm_num)) hz)
  have hupne : crcUpdate c b ≠ crcUpdate c b' := by
    rw [hstep]
    exact fun hq => xor_ne_self_of_ne_zero htne hq.symm
  exact foldl_crcUpdate_ne l2 (crcUpdate c b) (crcUpdate c b') hupne
    (crcUpdate_lt b hclt) (crcUpdate_lt b' hclt) hinj

/-! ## Byte-access and serialization lemmas -/

theorem byteAt_shift (Q tail : Bytes) (c i : Nat) (h : Q.length = c) :
    byteAt (Q ++ tail) (c + i) = byteAt tail i := by
  unfold byteAt
  rw [List.getD_append_right _ _ _ _ (by omega)]
  congr 1
  omega

theorem readU32BE_shift (Q tail : Bytes) (c : Nat) (h : Q.length = c) :
    readU32BE (Q ++ tail) c = readU32BE tail 0 := by
  unfold readU32BE
  have h0 := byteAt_shift Q tail c 0 h
  have h1 := byteAt_shift Q tail c 1 h
  have h2 := byteAt_shift Q tail c 2 h
  have h3 := byteAt_shift Q tail c 3 h
  simp only [Nat.add_zero] at h0
  rw [h0, h1, h2, h3]

theorem readU32BE_u32BEbytes (n : Nat) (s : Bytes) :
    readU32BE (u32BEbytes n ++ s) 0 = n % 2 ^ 32 := by
  simp only [readU32BE, u32BEbytes, byteAt, List.cons_append, List.getD_cons_zero,
    List.getD_cons_succ, List.nil_append]
  omega

theorem typeAt_shift (Q tail : Bytes) (c : Nat) (h : Q.length = c) :
    typeAt (Q ++ tail) (c + 4) = typeAt tail 4 := by
  unfold typeAt
  have h4 := byteAt_shift Q tail c 4 h
  have h5 := byteAt_shift Q tail c 5 h
  have h6 := byteAt_shift Q tail c 6 h
  have h7 := byteAt_shift Q tail c 7 h
  rw [show c + 4 + 1 = c + 5 from rfl, show c + 4 + 2 = c + 6 from rfl,
    show c + 4 + 3 = c + 7 from rfl, h4, h5, h6, h7]

theorem typeAt_u32_cons (n a b c d : Nat) (s : Bytes) :
    typeAt (u32BEbytes n ++ (a :: b :: c :: d :: s)) 4 = [a, b, c, d] := by
  simp [typeAt, u32BEbytes, byteAt]

theorem segment_read (Q payload s : Bytes) (c : Nat) (h : Q.length = c) :
    (List.range payload.length).map (fun i => byteAt (Q ++ (payload ++ s)) (c + i)) = payload := by
  apply List.ext_getElem
  · simp
  · intro i h1 h2
    simp only [List.getElem_map, List.getElem_range]
    rw [byteAt_shift Q (payload ++ s) c i h]
    unfold byteAt
    simp only [List.length_map, List.length_range] at h1
    rw [List.getD_append _ _ _ _ (by omega), List.getD_eq_getElem payload 0 (by omega)]

theorem u32BEbytes_length (n : Nat) : (u32BEbytes n).length = 4 := rfl

theorem nameBytes_length (c : ChunkData) : (nameBytes c).length = 4 := rfl

theorem encodeChunk_length (c : ChunkData) : (encodeChunk c).length = 12 + c.data.length := by
  simp [encodeChunk, u32BEbytes, nameBytes]
  omega

theorem serializeFrom_cons (c : ChunkData) (cs : List ChunkData) :
    serializeFrom (c :: cs) = encodeChunk c ++ serializeFrom cs := by
  simp [serializeFrom]

theorem serializeFrom_append (cs ds : List ChunkData) :
    serializeFrom (cs ++ ds) = serializeFrom cs ++ serializeFrom ds := by
  simp [serializeFrom]

theorem length_le_serializeFrom (cs : List ChunkData) :
    cs.length ≤ (serializeFrom cs).length := by
  induction cs with
  | nil => simp [serializeFrom]
  | cons c cs ih =>
    rw [serializeFrom_cons]
    simp only [List.length_append, List.length_cons, encodeChunk_length]
    omega

theorem list_len4 (nb : Bytes) (h : nb.length = 4) : ∃ a b c d, nb = [a, b, c, d] := by
  match nb, h with
  | [a, b, c, d], _ => exact ⟨a, b, c, d, rfl⟩

theorem nameBytes_of_valid {c : ChunkData} (h : validChunk c) : nameBytes c = c.name := by
  obtain ⟨h4, hlt, -, -⟩ := h
  obtain ⟨a, b, x, y, he⟩ := list_len4 c.name h4
  have ha : a < 256 := hlt a (by rw [he]; simp)
  have hb : b < 256 := hlt b (by rw [he]; simp)
  have hx : x < 256 := hlt x (by rw [he]; simp)
  have hy : y < 256 := hlt y (by rw [he]; simp)
  simp [nameBytes, nameByte, he, Nat.mod_eq_of_lt, ha, hb, hx, hy]

/-! ## extractLoop stepping lemmas -/

theorem extractLoop_read (P : Bytes) (m : Nat) (nb payload : Bytes) (k : Nat) (s : Bytes)
    (chunks : List ChunkData) (fuel : Nat) (hm : m < 2 ^ 32) (hpl : payload.length = m)
    (hnb4 : nb.length = 4) (hk : k < 2 ^ 32)
    (hfirst : ¬(chunks = [] ∧ nb ≠ iHDRName)) (hnend : nb ≠ iENDName) :
    extractLoop (P ++ (u32BEbytes m ++ (nb ++ (payload ++ (u32BEbytes k ++ s)))))
        P.length chunks (fuel + 1)
      = if crc32 (nb ++ payload) ≠ k then .error (.checksumMismatch nb)
        else extractLoop (P ++ (u32BEbytes m ++ (nb ++ (payload ++ (u32BEbytes k ++ s)))))
          (P.length + 12 + m) (chunks ++ [⟨nb, payload⟩]) fuel := by
  obtain ⟨a, b, x, y, he⟩ := list_len4 nb hnb4
  set tail := u32BEbytes m ++ (nb ++ (payload ++ (u32BEbytes k ++ s))) with htail
  have hlt : P.length < (P ++ tail).length := by
    simp [htail, u32BEbytes_length]
  have hlen : readU32BE (P ++ tail) P.length = m := by
    rw [readU32BE_shift P tail P.length rfl, htail, readU32BE_u32BEbytes, Nat.mod_eq_of_lt hm]
  have hname : typeAt (P ++ tail) (P.length + 4) = nb := by
    rw [typeAt_shift P tail P.length rfl, htail, he]
    simp only [List.cons_append, List.nil_append]
    rw [typeAt_u32_cons, ← he]
  have hpay : (List.range m).map (fun i => byteAt (P ++ tail) (P.length + 8 + i)) = payload := by
    have hQ : (P ++ (u32BEbytes m ++ nb)).length = P.length + 8 := by
      simp [u32BEbytes_length, hnb4]
    have := segment_read (P ++ (u32BEbytes m ++ nb)) payload (u32BEbytes k ++ s)
      (P.length + 8) hQ
    rw [hpl] at this
    rw [← this]
    apply List.map_congr_left
    intro i _
    congr 1
    simp [htail]
  have hcrc : readU32BE (P ++ tail) (P.length + 8 + m) = k := by
    have hQ : (P ++ (u32BEbytes m ++ (nb ++ payload))).length = P.length + 8 + m := by
      simp [u32BEbytes_length, hnb4, hpl]
      omega
    have hassoc : P ++ (u32BEbytes m ++ (nb ++ payload)) ++ (u32BEbytes k ++ s) = P ++ tail := by
      simp [htail]
    rw [← hassoc, readU32BE_shift _ _ _ hQ, readU32BE_u32BEbytes, Nat.mod_eq_of_lt hk]
  simp only [extractLoop]
  rw [if_pos hlt]
  simp only [hlen, hname, hpay, hcrc]
  rw [if_neg hfirst, if_neg hnend]

theorem extractLoop_iend (P : Bytes) (n : Nat) (s : Bytes) (chunks : List ChunkData)
    (fuel : Nat) (hne : chunks ≠ []) :
    extractLoop (P ++ (u32BEbytes n ++ (iENDName ++ s))) P.length chunks (fuel + 1)
      = .ok (chunks ++ [⟨iENDName, []⟩]) := by
  set tail := u32BEbytes n ++ (iENDName ++ s) with htail
  have hlt : P.length < (P ++ tail).length := by
    simp [htail, u32BEbytes_length]
  have hname : typeAt (P ++ tail) (P.length + 4) = iENDName := by
    rw [typeAt_shift P tail P.length rfl, htail]
    simp only [iENDName, List.cons_append, List.nil_append]
    rw [typeAt_u32_cons]
  simp only [extractLoop]
  rw [if_pos hlt]
  simp only [hname]
  rw [if_neg (by simp [hne])]
  simp

theorem extractLoop_missing (data : Bytes) (idx fuel : Nat) (hlt : idx < data.length)
    (hname : typeAt data (idx + 4) ≠ iHDRName) :
    extractLoop data idx [] (fuel + 1) = .error .missingIHDR := by
  simp only [extractLoop]
  rw [if_pos hlt]
  simp [hname]

theorem extractLoop_steps (cs : List ChunkData) :
    ∀ (P tail : Bytes) (chunks : List ChunkData) (f : Nat),
    (∀ c ∈ cs, validChunk c ∧ c.name ≠ iENDName) →
    (chunks = [] → cs = [] ∨ cs.head?.map ChunkData.name = some iHDRName) →
    extractLoop (P ++ (serializeFrom cs ++ tail)) P.length chunks (cs.length + f)
      = extractLoop ((P ++ serializeFrom cs) ++ tail) (P ++ serializeFrom cs).length
          (chunks ++ cs) f := by
  induction cs with
  | nil =>
    intro P tail chunks f _ _
    simp [serializeFrom]
  | cons c rest ih =>
    intro P tail chunks f hval hhead
    have hcv : validChunk c := (hval c (by simp)).1
    have hcnend : c.name ≠ iENDName := (hval c (by simp)).2
    have hfirst : ¬(chunks = [] ∧ c.name ≠ iHDRName) := by
      rintro ⟨hc, hn⟩
      rcases hhead hc with h | h
      · exact (List.cons_ne_nil c rest) h
      · simp only [List.head?_cons, Option.map_some'] at h
        exact hn (Option.some.inj h)
    have hdata : P ++ (serializeFrom (c :: rest) ++ tail)
        = P ++ (u32BEbytes c.data.length ++ (c.name ++ (c.data ++ (u32BEbytes
          (crc32 (c.name ++ c.data)) ++ (serializeFrom rest ++ tail))))) := by
      rw [serializeFrom_cons]
      simp [encodeChunk, nameBytes_of_valid hcv, List.append_assoc]
    have hlen : (c :: rest).length + f = (rest.length + f) + 1 := by simp; omega
    rw [hdata, hlen, extractLoop_read P c.data.length c.name c.data
      (crc32 (c.name ++ c.data)) (serializeFrom rest ++ tail) chunks (rest.length + f)
      hcv.2.2.2 rfl hcv.1 (crc32_lt _) hfirst hcnend]
    rw [if_neg (by simp)]
    have hP' : P.length + 12 + c.data.length = (P ++ encodeChunk c).length := by
      simp [encodeChunk_length]
      omega
    have hdata2 : P ++ (u32BEbytes c.data.length ++ (c.name ++ (c.data ++ (u32BEbytes
          (crc32 (c.name ++ c.data)) ++ (serializeFrom rest ++ tail)))))
        = (P ++ encodeChunk c) ++ (serializeFrom rest ++ tail) := by
      simp [encodeChunk, nameBytes_of_valid hcv, List.append_assoc]
    rw [hP', hdata2, ih (P ++ encodeChunk c) tail (chunks ++ [c]) f
      (fun d hd => hval d (by simp [hd]))
      (by intro hcon; simp at hcon)]
    rw [serializeFrom_cons]
    simp [List.append_assoc]

/-! ## Extraction of encoded chunk sequences -/

theorem extract_header (rest : Bytes) :
    extractChunks (pngSignature ++ rest)
      = extractLoop (pngSignature ++ rest) 8 [] (pngSignature ++ rest).length := by
  simp [extractChunks, pngSignature, byteAt]

theorem validSeq_decomp {cs : List ChunkData} (h : validChunkSeq cs) :
    ∃ mids, cs = mids ++ [⟨iENDName, []⟩] ∧ mids ≠ [] ∧
      mids.head?.map ChunkData.name = some iHDRName ∧
      (∀ c ∈ mids, validChunk c ∧ c.name ≠ iENDName) := by
  obtain ⟨hval, hmid, hlast, hhead⟩ := h
  have hdec := List.dropLast_append_getLast? _ hlast
  have hmne : cs.dropLast ≠ [] := by
    intro hnil
    have hcs : cs = [⟨iENDName, []⟩] := by rw [← hdec, hnil]; rfl
    rw [hcs] at hhead
    simp only [List.head?_cons, Option.map_some'] at hhead
    have := Option.some.inj hhead
    simp [iENDName, iHDRName] at this
  refine ⟨cs.dropLast, hdec.symm, hmne, ?_, ?_⟩
  · rw [← hdec, List.head?_append_of_ne_nil _ hmne] at hhead
    exact hhead
  · intro c hc
    refine ⟨hval c ?_, hmid c hc⟩
    rw [← hdec]
    exact List.mem_append_left _ hc

theorem encodeChunk_iend :
    encodeChunk ⟨iENDName, []⟩
      = u32BEbytes 0 ++ (iENDName ++ u32BEbytes (crc32 iENDName)) := by
  simp [encodeChunk, nameBytes, nameByte, iENDName, u32BEbytes]

theorem extract_encode_id {cs : List ChunkData} (h : validChunkSeq cs) :
    extractChunks (encodeChunks cs) = .ok cs := by
  obtain ⟨mids, hcs, hmne, hhead, hmids⟩ := validSeq_decomp h
  subst hcs
  unfold encodeChunks
  rw [extract_header]
  have hser : serializeFrom (mids ++ [(⟨iENDName, []⟩ : ChunkData)])
      = serializeFrom mids ++ encodeChunk ⟨iENDName, []⟩ := by
    rw [serializeFrom_append]
    simp [serializeFrom]
  have hfuel : ∃ f, (pngSignature ++ serializeFrom (mids ++ [(⟨iENDName, []⟩ : ChunkData)])).length
      = mids.length + (f + 1) := by
    have h1 := length_le_serializeFrom (mids ++ [(⟨iENDName, []⟩ : ChunkData)])
    have h2 : pngSignature.length = 8 := rfl
    refine ⟨(pngSignature ++ serializeFrom (mids ++ [(⟨iENDName, []⟩ : ChunkData)])).length
      - mids.length - 1, ?_⟩
    simp only [List.length_append, List.length_cons, List.length_nil] at h1 ⊢
    omega
  obtain ⟨f, hf⟩ := hfuel
  rw [hf]
  have hdata : pngSignature ++ serializeFrom (mids ++ [(⟨iENDName, []⟩ : ChunkData)])
      = pngSignature ++ (serializeFrom mids ++ encodeChunk ⟨iENDName, []⟩) := by
    rw [hser]
  rw [hdata, show (8 : Nat) = pngSignature.length from rfl,
    extractLoop_steps mids pngSignature (encodeChunk ⟨iENDName, []⟩) [] (f + 1) hmids
      (fun _ => Or.inr hhead)]
  have hdata2 : (pngSignature ++ serializeFrom mids) ++ encodeChunk ⟨iENDName, []⟩
      = (pngSignature ++ serializeFrom mids)
          ++ (u32BEbytes 0 ++ (iENDName ++ u32BEbytes (crc32 iENDName))) := by
    rw [encodeChunk_iend]
  rw [hdata2, extractLoop_iend (pngSignature ++ serializeFrom mids) 0
    (u32BEbytes (crc32 iENDName)) ([] ++ mids) f (by simp [hmne])]
  simp

/-- A minimal well-formed PNG chunk sequence used as concrete witness input. -/
def demoPng : List ChunkData := [⟨iHDRName, []⟩, ⟨iENDName, []⟩]

/-- C1: for every well-formed PNG byte sequence (valid signature, first
chunk IHDR, terminal IEND with empty payload and correct CRC, every
chunk's stored checksum equal to the CRC32 of type ++ payload, no
trailing bytes), encoding the extracted chunk list reproduces the input
byte for byte: encode(extract(bytes)) = bytes. -/
theorem C1_encode_extract_roundtrip (bytes : Bytes) (h : WellFormedPng bytes) :
    (extractChunks bytes).map encodeChunks = .ok bytes := by
  obtain ⟨cs, hv, rfl⟩ := h
  rw [extract_encode_id hv]
  rfl

/-- Witness for C1 at a concrete two-chunk PNG. -/
theorem C1_encode_extract_roundtrip_witness :
    (extractChunks (encodeChunks demoPng)).map encodeChunks = .ok (encodeChunks demoPng) :=
  C1_encode_extract_roundtrip (encodeChunks demoPng) ⟨demoPng, by decide, rfl⟩

/-! ## Text codec lemmas -/

theorem contains_zero_false {l : Str} (h : ∀ c ∈ l, c ≠ 0) : l.contains 0 = false := by
  simp only [List.contains_eq_any_beq]
  simp
  intro x h2
  exact fun he => (h x h2) he.symm

theorem textDecodeLoop_text (t : Str) : ∀ (name text : Str), (∀ c ∈ t, c ≠ 0) →
    textDecodeLoop t false name text = .ok (name, text ++ t) := by
  induction t with
  | nil => intro name text _; simp [textDecodeLoop]
  | cons c rest ih =>
    intro name text h
    have hc : c ≠ 0 := h c (by simp)
    rw [show textDecodeLoop (c :: rest) false name text
      = if c ≠ 0 then textDecodeLoop rest false name (text ++ [c])
        else .error .invalidCharacter from rfl]
    rw [if_pos hc, ih name (text ++ [c]) (fun d hd => h d (by simp [hd]))]
    simp

theorem textDecodeLoop_name (k : Str) : ∀ (t name text : Str), (∀ c ∈ k, c ≠ 0) →
    (∀ c ∈ t, c ≠ 0) →
    textDecodeLoop (k ++ 0 :: t) true name text = .ok (name ++ k, text ++ t) := by
  induction k with
  | nil =>
    intro t name text _ ht
    rw [show textDecodeLoop ([] ++ 0 :: t) true name text
      = textDecodeLoop t false name text from rfl]
    rw [textDecodeLoop_text t name text ht]
    simp
  | cons c rest ih =>
    intro t name text hk ht
    have hc : c ≠ 0 := hk c (by simp)
    rw [show textDecodeLoop ((c :: rest) ++ 0 :: t) true name text
      = if c ≠ 0 then textDecodeLoop (rest ++ 0 :: t) true (name ++ [c]) text
        else textDecodeLoop (rest ++ 0 :: t) false name text from rfl]
    rw [if_pos hc, ih t (name ++ [c]) text (fun d hd => hk d (by simp [hd])) ht]
    simp

theorem textDecodeLoop_all_naming (b : Bytes) : ∀ (name text : Str), (∀ c ∈ b, c ≠ 0) →
    textDecodeLoop b true name text = .ok (name ++ b, text) := by
  induction b with
  | nil => intro name text _; simp [textDecodeLoop]
  | cons c rest ih =>
    intro name text h
    have hc : c ≠ 0 := h c (by simp)
    rw [show textDecodeLoop (c :: rest) true name text
      = if c ≠ 0 then textDecodeLoop rest true (name ++ [c]) text
        else textDecodeLoop rest false name text from rfl]
    rw [if_pos hc, ih (name ++ [c]) text (fun d hd => h d (by simp [hd]))]
    simp

theorem latin1Test_true {s : Str} (hne : s ≠ []) (hle : ∀ c ∈ s, c ≤ 255) :
    latin1Test s = true := by
  simp [latin1Test, List.isEmpty_iff, hne]
  exact hle

theorem map_mod256_id {s : Str} (hle : ∀ c ∈ s, c ≤ 255) : s.map (· % 256) = s := by
  conv_rhs => rw [← List.map_id s]
  apply List.map_congr_left
  intro c hc
  exact Nat.mod_eq_of_lt (by have := hle c hc; omega)

theorem textEncode_ok {k t : Str} (nm : Str) (hk1 : 1 ≤ k.length) (hk79 : k.length ≤ 79)
    (hkl : ∀ c ∈ k, c ≤ 255) (htl : ∀ c ∈ t, c ≤ 255)
    (hk0 : ∀ c ∈ k, c ≠ 0) (ht0 : ∀ c ∈ t, c ≠ 0) :
    textEncode k t nm = .ok ⟨nm, k ++ 0 :: t⟩ := by
  have hkne : k ≠ [] := by
    intro hc
    rw [hc] at hk1
    simp at hk1
  unfold textEncode
  rw [if_neg (by
    rintro ⟨hlen, h | h⟩
    · exact h (latin1Test_true hkne hkl)
    · rcases List.eq_nil_or_concat t with ht | ⟨t0, c0, rfl⟩
      · subst ht; simp at hlen
      · exact h (latin1Test_true (by simp) htl))]
  rw [if_neg (by omega)]
  rw [show k.contains 0 = false from contains_zero_false hk0,
    show t.contains 0 = false from contains_zero_false ht0]
  simp only [Bool.false_eq_true, if_false]
  rw [map_mod256_id hkl, map_mod256_id htl]

/-- C4: for every keyword/text pair of Latin-1 code points without 0x00
and keyword length between 1 and 79, decoding the encoded chunk's
payload returns exactly the original pair. -/
theorem C4_text_roundtrip (k t : Str) (hk1 : 1 ≤ k.length) (hk79 : k.length ≤ 79)
    (hkl : ∀ c ∈ k, c ≤ 255) (htl : ∀ c ∈ t, c ≤ 255)
    (hk0 : ∀ c ∈ k, c ≠ 0) (ht0 : ∀ c ∈ t, c ≠ 0) :
    (do
      let c ← textEncode k t tEXtName
      textDecode c.data) = .ok (k, t) := by
  rw [textEncode_ok tEXtName hk1 hk79 hkl htl hk0 ht0]
  show textDecode (k ++ 0 :: t) = .ok (k, t)
  unfold textDecode
  rw [textDecodeLoop_name k t [] [] hk0 ht0]
  simp

/-- Witness for C4 at keyword "A", text "B". -/
theorem C4_text_roundtrip_witness :
    (do
      let c ← textEncode [65] [66] tEXtName
      textDecode c.data) = .ok ([65], [66]) :=
  C4_text_roundtrip [65] [66] (by decide) (by decide) (by decide) (by decide)
    (by decide) (by decide)

/-- C10: a payload without any 0x00 byte decodes successfully to the
whole payload as the keyword and an empty text; the missing separator
is never diagnosed. -/
theorem C10_no_separator (b : Bytes) (h : ∀ c ∈ b, c ≠ 0) :
    textDecode b = .ok (b, []) := by
  unfold textDecode
  rw [textDecodeLoop_all_naming b [] [] h]
  simp

/-- Witness for C10 at payload "AB". -/
theorem C10_no_separator_witness : textDecode [65, 66] = .ok ([65, 66], []) :=
  C10_no_separator [65, 66] (by decide)

/-- C6 counterexample: a keyword of 80 copies of code point 256 with the
nonempty text "v" fails with InvalidCharacter, not KeywordTooLong,
because the Latin-1 check runs before the 80-character limit check;
this refutes the claim that every keyword of length at least 80 fails
with KeywordTooLong. -/
theorem C6_counterexample :
    textEncode (List.replicate 80 256) [118] tEXtName = .error .invalidCharacter ∧
      80 ≤ (List.replicate 80 (256 : Nat)).length ∧
      textEncode (List.replicate 80 256) [118] tEXtName ≠ .error .keywordTooLong := by
  decide

/-- C6 amended: textEncode applies its checks in source order.  With
nonempty text, a failed Latin-1 test (empty keyword or any code unit
above 255 in either string) gives InvalidCharacter; otherwise a keyword
of length at least 80 gives KeywordTooLong; otherwise a 0 code unit in
either string gives InvalidCharacter; otherwise the result is a chunk
with the given type whose payload is the keyword code units mod 256, a
single 0x00 separator, then the text code units mod 256, of length
keyword.length + 1 + text.length. -/
theorem C6_textEncode_errors :
    (∀ k t nm : Str, t ≠ [] →
      (k = [] ∨ (∃ c ∈ k, 255 < c) ∨ (∃ c ∈ t, 255 < c)) →
      textEncode k t nm = .error .invalidCharacter) ∧
    (∀ k t nm : Str, 80 ≤ k.length →
      (t = [] ∨ ((∀ c ∈ k, c ≤ 255) ∧ (∀ c ∈ t, c ≤ 255))) →
      textEncode k t nm = .error .keywordTooLong) ∧
    (∀ k t nm : Str, k.length ≤ 79 →
      (t = [] ∨ (k ≠ [] ∧ (∀ c ∈ k, c ≤ 255) ∧ (∀ c ∈ t, c ≤ 255))) →
      (0 ∈ k ∨ 0 ∈ t) →
      textEncode k t nm = .error .invalidCharacter) ∧
    (∀ k t nm : Str, k.length ≤ 79 → (0 : Nat) ∉ k → (0 : Nat) ∉ t →
      (t = [] ∨ (k ≠ [] ∧ (∀ c ∈ k, c ≤ 255) ∧ (∀ c ∈ t, c ≤ 255))) →
      textEncode k t nm = .ok ⟨nm, k.map (· % 256) ++ 0 :: t.map (· % 256)⟩ ∧
        (k.map (· % 256) ++ 0 :: t.map (· % 256)).length = k.length + 1 + t.length) := by
  have hfirst_neg : ∀ k t : Str,
      (t = [] ∨ (k ≠ [] ∧ (∀ c ∈ k, c ≤ 255) ∧ (∀ c ∈ t, c ≤ 255))) →
      ¬(t.length ≠ 0 ∧ (¬latin1Test k ∨ ¬latin1Test t)) := by
    rintro k t (rfl | ⟨hkne, hkl, htl⟩) ⟨hlen, h⟩
    · simp at hlen
    · rcases h with h | h
      · exact h (latin1Test_true hkne hkl)
      · rcases List.eq_nil_or_concat t with ht | ⟨t0, c0, rfl⟩
        · subst ht; simp at hlen
        · exact h (latin1Test_true (by simp) htl)
  refine ⟨?_, ?_, ?_, ?_⟩
  · intro k t nm htne hbad
    unfold textEncode
    rw [if_pos]
    refine ⟨by simp [htne], ?_⟩
    rcases hbad with rfl | ⟨c, hc, hcgt⟩ | ⟨c, hc, hcgt⟩
    · exact Or.inl (by simp [latin1Test])
    · refine Or.inl (by
        simp [latin1Test]
        intro _
        exact ⟨c, hc, by omega⟩)
    · refine Or.inr (by
        simp [latin1Test]
        intro _
        exact ⟨c, hc, by omega⟩)
  · intro k t nm hlong hok
    unfold textEncode
    rw [if_neg (hfirst_neg k t (by
      rcases hok with rfl | ⟨hkl, htl⟩
      · exact Or.inl rfl
      · exact Or.inr ⟨by intro hc; rw [hc] at hlong; simp at hlong, hkl, htl⟩))]
    rw [if_pos hlong]
  · intro k t nm hshort hok hzero
    unfold textEncode
    rw [if_neg (hfirst_neg k t hok), if_neg (by omega)]
    by_cases hkz : (0 : Nat) ∈ k
    · rw [if_pos (by simp only [List.contains_eq_any_beq]; simp; exact hkz)]
    · rw [if_neg (by simp; exact hkz)]
      rcases hzero with h | h
      · exact absurd h hkz
      · rw [if_pos (by simp only [List.contains_eq_any_beq]; simp; exact h)]
  · intro k t nm hshort hkz htz hok
    refine ⟨?_, by simp; omega⟩
    unfold textEncode
    rw [if_neg (hfirst_neg k t hok), if_neg (by omega),
      if_neg (by simp; exact hkz), if_neg (by simp; exact htz)]

/-- Witness for the amended C6 at keyword "A", text "B". -/
theorem C6_textEncode_errors_witness :
    textEncode [65] [66] tEXtName
        = .ok ⟨tEXtName, [65].map (· % 256) ++ 0 :: [66].map (· % 256)⟩ ∧
      (([65] : Str).map (· % 256) ++ 0 :: ([66] : Str).map (· % 256)).length
        = ([65] : Str).length + 1 + ([66] : Str).length :=
  C6_textEncode_errors.2.2.2 [65] [66] tEXtName (by decide) (by decide) (by decide)
    (Or.inr ⟨by decide, by decide, by decide⟩)

/-! ## Structural rejection and IEND handling -/

theorem extractLoop_end (data : Bytes) (idx : Nat) (chunks : List ChunkData) (f : Nat)
    (h : data.length ≤ idx) : extractLoop data idx chunks f = .error .truncatedFile := by
  cases f with
  | zero => rfl
  | succ g =>
    simp only [extractLoop]
    rw [if_neg (Nat.not_lt.mpr h)]

/-- C5 counterexample: in a buffer whose signature bytes 0 and 4 both
mismatch, the error is the generic InvalidHeader (raised at byte 0),
not the line-ending variant, even though byte 4 mismatches; the
variant therefore does not appear exactly when byte 4, 5 or 7
mismatches. -/
theorem C5_counterexample :
    extractChunks [0, 0x50, 0x4E, 0x47, 0, 0x0A, 0x1A, 0x0A]
        = .error (.invalidHeader false) ∧
      byteAt [0, 0x50, 0x4E, 0x47, 0, 0x0A, 0x1A, 0x0A] 4 ≠ 0x0D := by
  decide

/-- C5 amended: a buffer whose first 8 bytes differ from the signature
fails with InvalidHeader, carrying the line-ending variant exactly when
the first mismatching byte index is 4, 5 or 7; a buffer passing the
signature check whose first chunk type is not IHDR fails with
MissingIHDR; a buffer whose scan reaches the end without an IEND chunk
(here: the serialization of valid chunks none of which is IEND) fails
with TruncatedFile. -/
theorem C5_structural_rejection :
    (∀ d : Bytes, firstMismatch d < 8 →
      extractChunks d = .error (.invalidHeader
        (firstMismatch d == 4 || firstMismatch d == 5 || firstMismatch d == 7))) ∧
    (∀ d : Bytes, firstMismatch d = 8 → 8 < d.length → typeAt d 12 ≠ iHDRName →
      extractChunks d = .error .missingIHDR) ∧
    (∀ cs : List ChunkData, (∀ c ∈ cs, validChunk c ∧ c.name ≠ iENDName) →
      (cs = [] ∨ cs.head?.map ChunkData.name = some iHDRName) →
      extractChunks (pngSignature ++ serializeFrom cs) = .error .truncatedFile) := by
  refine ⟨?_, ?_, ?_⟩
  · intro d hf
    by_cases h0 : byteAt d 0 ≠ 0x89
    · simp [extractChunks, firstMismatch, h0]
    by_cases h1 : byteAt d 1 ≠ 0x50
    · simp [extractChunks, firstMismatch, h0, h1]
    by_cases h2 : byteAt d 2 ≠ 0x4E
    · simp [extractChunks, firstMismatch, h0, h1, h2]
    by_cases h3 : byteAt d 3 ≠ 0x47
    · simp [extractChunks, firstMismatch, h0, h1, h2, h3]
    by_cases h4 : byteAt d 4 ≠ 0x0D
    · simp [extractChunks, firstMismatch, h0, h1, h2, h3, h4]
    by_cases h5 : byteAt d 5 ≠ 0x0A
    · simp [extractChunks, firstMismatch, h0, h1, h2, h3, h4, h5]
    by_cases h6 : byteAt d 6 ≠ 0x1A
    · simp [extractChunks, firstMismatch, h0, h1, h2, h3, h4, h5, h6]
    by_cases h7 : byteAt d 7 ≠ 0x0A
    · simp [extractChunks, firstMismatch, h0, h1, h2, h3, h4, h5, h6, h7]
    · exfalso
      simp only [firstMismatch, h0, h1, h2, h3, h4, h5, h6, h7, if_neg] at hf
      simp at hf
  · intro d hf hlen hty
    have hall : ¬byteAt d 0 ≠ 0x89 ∧ ¬byteAt d 1 ≠ 0x50 ∧ ¬byteAt d 2 ≠ 0x4E ∧
        ¬byteAt d 3 ≠ 0x47 ∧ ¬byteAt d 4 ≠ 0x0D ∧ ¬byteAt d 5 ≠ 0x0A ∧
        ¬byteAt d 6 ≠ 0x1A ∧ ¬byteAt d 7 ≠ 0x0A := by
      unfold firstMismatch at hf
      split_ifs at hf <;> omega
    obtain ⟨h0, h1, h2, h3, h4, h5, h6, h7⟩ := hall
    unfold extractChunks
    rw [if_neg h0, if_neg h1, if_neg h2, if_neg h3, if_neg h4, if_neg h5, if_neg h6,
      if_neg h7]
    have hfe : ∃ g, d.length = g + 1 := ⟨d.length - 1, by omega⟩
    obtain ⟨g, hg⟩ := hfe
    rw [hg, extractLoop_missing d 8 g (by omega) (by rwa [show (8 : Nat) + 4 = 12 from rfl])]
  · intro cs hval hhead
    rw [extract_header]
    have hfuel : ∃ f, (pngSignature ++ serializeFrom cs).length = cs.length + f := by
      have h1 := length_le_serializeFrom cs
      refine ⟨(pngSignature ++ serializeFrom cs).length - cs.length, ?_⟩
      simp only [List.length_append]
      omega
    obtain ⟨f, hf⟩ := hfuel
    have hser : pngSignature ++ serializeFrom cs
        = pngSignature ++ (serializeFrom cs ++ []) := by simp
    rw [hf, hser, show (8 : Nat) = pngSignature.length from rfl,
      extractLoop_steps cs pngSignature [] [] f hval (fun _ => hhead)]
    apply extractLoop_end
    simp

/-- Witness for the amended C5: a buffer mismatching at byte 5 only gets
the line-ending variant, and a signature followed by one undersized
non-IEND chunk ends in TruncatedFile. -/
theorem C5_structural_rejection_witness :
    extractChunks [0x89, 0x50, 0x4E, 0x47, 0x0D, 0x0B, 0x1A, 0x0A]
        = .error (.invalidHeader true) ∧
      extractChunks (pngSignature ++ serializeFrom [⟨iHDRName, []⟩])
        = .error .truncatedFile := by
  constructor
  · have h := C5_structural_rejection.1 [0x89, 0x50, 0x4E, 0x47, 0x0D, 0x0B, 0x1A, 0x0A]
      (by decide)
    rw [show firstMismatch [0x89, 0x50, 0x4E, 0x47, 0x0D, 0x0B, 0x1A, 0x0A] = 5
      from by decide] at h
    exact h
  · exact C5_structural_rejection.2.2 [⟨iHDRName, []⟩] (by decide) (by decide)

/-- C9: extract never verifies the IEND chunk's stored checksum.  A buffer
well-formed up to the 4 IEND type bytes (valid signature, valid chunks
with IHDR first, then any declared length and the IEND type) extracts
successfully to those chunks plus an IEND chunk with forced-empty
payload, whatever bytes (corrupt CRC, no CRC, trailing garbage) follow
the type. -/
theorem C9_iend_crc_ignored (pre : List ChunkData) (L : Nat) (garbage : Bytes)
    (hne : pre ≠ []) (hhead : pre.head?.map ChunkData.name = some iHDRName)
    (hval : ∀ c ∈ pre, validChunk c ∧ c.name ≠ iENDName) :
    extractChunks (pngSignature
        ++ (serializeFrom pre ++ (u32BEbytes L ++ (iENDName ++ garbage))))
      = .ok (pre ++ [⟨iENDName, []⟩]) := by
  rw [show pngSignature ++ (serializeFrom pre ++ (u32BEbytes L ++ (iENDName ++ garbage)))
    = pngSignature ++ (serializeFrom pre ++ (u32BEbytes L ++ (iENDName ++ garbage)))
    from rfl, extract_header]
  have hfuel : ∃ f, (pngSignature
      ++ (serializeFrom pre ++ (u32BEbytes L ++ (iENDName ++ garbage)))).length
      = pre.length + (f + 1) := by
    have h1 := length_le_serializeFrom pre
    refine ⟨(pngSignature
      ++ (serializeFrom pre ++ (u32BEbytes L ++ (iENDName ++ garbage)))).length
      - pre.length - 1, ?_⟩
    simp only [List.length_append, u32BEbytes_length]
    simp only [List.length_append] at h1 ⊢
    omega
  obtain ⟨f, hf⟩ := hfuel
  rw [hf, show (8 : Nat) = pngSignature.length from rfl,
    extractLoop_steps pre pngSignature (u32BEbytes L ++ (iENDName ++ garbage)) [] (f + 1)
      hval (fun _ => Or.inr hhead),
    extractLoop_iend (pngSignature ++ serializeFrom pre) L garbage ([] ++ pre) f
      (by simp [hne])]
  simp

/-! ## Checksum sensitivity -/

theorem take_set_of_le (l : Bytes) (j v n : Nat) (h : n ≤ j) :
    (l.set j v).take n = l.take n := by
  apply List.ext_getElem
  · simp
  · intro i h1 h2
    simp only [List.getElem_take] at h1 h2 ⊢
    have hne : j ≠ i := by simp at h1; omega
    rw [List.getElem_set_ne hne]

theorem crc32_flipBit_ne (l : Bytes) (j t : Nat) (hj : j < l.length) (ht : t < 8)
    (hb : ∀ x ∈ l, x < 256) : crc32 (flipBit l j t) ≠ crc32 l := by
  have hset : flipBit l j t = l.take j ++ (l.getD j 0 ^^^ 1 <<< t) :: l.drop (j + 1) :=
    List.set_eq_take_cons_drop _ hj
  have hidx : l.getD j 0 = l[j] := List.getD_eq_getElem l 0 hj
  have hl : l = l.take j ++ l[j] :: l.drop (j + 1) := by
    conv_lhs => rw [← List.take_append_drop j l, List.drop_eq_getElem_cons hj]
  have hpow : 1 <<< t = 2 ^ t := by rw [Nat.shiftLeft_eq, Nat.one_mul]
  have hpne : (1 <<< t : Nat) ≠ 0 := by rw [hpow]; positivity
  have hblt : l[j] < 256 := hb _ (List.getElem_mem hj)
  have hplt : (1 <<< t : Nat) < 256 := by
    rw [hpow]
    calc 2 ^ t < 2 ^ 8 := Nat.pow_lt_pow_right (by omega) ht
    _ = 256 := by norm_num
  have hblt' : l[j] ^^^ 1 <<< t < 256 := by
    have h8 : (2 : Nat) ^ 8 = 256 := by norm_num
    have := Nat.xor_lt_two_pow (show l[j] < 2 ^ 8 by omega) (show 1 <<< t < 2 ^ 8 by omega)
    omega
  rw [hset, hidx]
  conv_rhs => rw [hl]
  exact crc32_flip_ne' (l.take j) (l.drop (j + 1))
    (xor_ne_self_of_ne_zero hpne) hblt' hblt

/-- C2 counterexample: flipping bit 0 of byte 12 of a well-formed PNG --
the first type byte of the first (IHDR) chunk -- makes extract fail with
MissingIHDR, not ChecksumMismatch, because the IHDR check precedes the
CRC comparison. -/
theorem C2_counterexample :
    extractChunks (flipBit (encodeChunks demoPng) 12 0) = .error .missingIHDR ∧
      byteAt (encodeChunks demoPng) 12 = 0x49 ∧ (encodeChunks demoPng).length = 32 := by
  decide

/-- C2 amended: for a well-formed PNG, flipping any single bit within a
chunk's payload bytes, or within its 4 type bytes provided the chunk is
not the first and the flipped type is not IEND, while keeping the stored
checksum, makes extract fail with ChecksumMismatch naming the chunk type
as read from the flipped bytes.  (Flipping a type bit of the first chunk
instead fails with MissingIHDR, and a flip that turns a type into IEND
terminates the scan early with success.) -/
theorem C2_checksum_sensitivity (pre : List ChunkData) (c : ChunkData)
    (post : List ChunkData) (j t : Nat) (hv : validChunkSeq (pre ++ c :: post))
    (hj : j < 4 + c.data.length) (ht : t < 8)
    (hty : j < 4 → pre ≠ [] ∧ (flipBit (c.name ++ c.data) j t).take 4 ≠ iENDName) :
    extractChunks (pngSignature ++ (serializeFrom pre
        ++ (u32BEbytes c.data.length
          ++ (flipBit (c.name ++ c.data) j t
            ++ (u32BEbytes (crc32 (c.name ++ c.data)) ++ serializeFrom post)))))
      = .error (.checksumMismatch ((flipBit (c.name ++ c.data) j t).take 4)) := by
  obtain ⟨hval, hmid, hlast, hhead⟩ := hv
  have hcv : validChunk c := hval c (by simp)
  have hlen4 : c.name.length = 4 := hcv.1
  have hflen : (flipBit (c.name ++ c.data) j t).length = 4 + c.data.length := by
    simp [flipBit, hlen4]
  set flipped := flipBit (c.name ++ c.data) j t with hflip
  have hsplit : flipped = flipped.take 4 ++ flipped.drop 4 :=
    (List.take_append_drop 4 flipped).symm
  have htake4 : (flipped.take 4).length = 4 := by
    rw [List.length_take]
    omega
  have hdrop4 : (flipped.drop 4).length = c.data.length := by
    rw [List.length_drop]
    omega
  have hjt : j < (c.name ++ c.data).length := by
    simp only [List.length_append, hlen4]
    omega
  have hbytes : ∀ x ∈ c.name ++ c.data, x < 256 := by
    intro x hx
    rcases List.mem_append.mp hx with h | h
    · exact hcv.2.1 x h
    · exact hcv.2.2.1 x h
  have hcrcne : crc32 (flipped.take 4 ++ flipped.drop 4) ≠ crc32 (c.name ++ c.data) := by
    rw [← hsplit]
    exact crc32_flipBit_ne (c.name ++ c.data) j t hjt ht hbytes
  have hmid' : ∀ d ∈ pre, validChunk d ∧ d.name ≠ iENDName := by
    intro d hd
    refine ⟨hval d (by simp [hd]), hmid d ?_⟩
    rw [List.dropLast_append_of_ne_nil _ (List.cons_ne_nil c post)]
    exact List.mem_append_left _ hd
  have hflip_take : ¬j < 4 → flipped.take 4 = c.name := by
    intro hj4
    rw [hflip]
    unfold flipBit
    rw [take_set_of_le _ _ _ _ (by omega), List.take_left' hlen4]
  have htype_ne : flipped.take 4 ≠ iENDName := by
    by_cases hj4 : j < 4
    · exact (hty hj4).2
    · rw [hflip_take hj4]
      intro hce
      have hdne : c.data ≠ [] := by
        intro hdn
        rw [hdn] at hj
        simp at hj
        omega
      by_cases hpost : post = []
      · subst hpost
        have hlc : (pre ++ [c]).getLast? = some c := by
          rw [List.getLast?_append_cons]
          rfl
        rw [hlc] at hlast
        have := Option.some.inj hlast
        rw [this] at hdne
        exact hdne rfl
      · have hcmem : c ∈ (pre ++ c :: post).dropLast := by
          rw [List.dropLast_append_of_ne_nil _ (List.cons_ne_nil c post),
            List.dropLast_cons_of_ne_nil hpost]
          exact List.mem_append_right _ (by simp)
        exact hmid c hcmem hce
  have hfirst : ¬(([] ++ pre : List ChunkData) = [] ∧ flipped.take 4 ≠ iHDRName) := by
    rintro ⟨hpn, hfn⟩
    simp only [List.nil_append] at hpn
    have hj4 : ¬j < 4 := fun hlt => (hty hlt).1 hpn
    rw [hpn] at hhead
    simp only [List.nil_append, List.head?_cons, Option.map_some'] at hhead
    exact hfn (by rw [hflip_take hj4]; exact Option.some.inj hhead)
  rw [extract_header]
  have hfuel : ∃ f, (pngSignature ++ (serializeFrom pre
      ++ (u32BEbytes c.data.length ++ (flipped
        ++ (u32BEbytes (crc32 (c.name ++ c.data)) ++ serializeFrom post))))).length
      = pre.length + (f + 1) := by
    have h1 := length_le_serializeFrom pre
    refine ⟨(pngSignature ++ (serializeFrom pre
      ++ (u32BEbytes c.data.length ++ (flipped
        ++ (u32BEbytes (crc32 (c.name ++ c.data)) ++ serializeFrom post))))).length
      - pre.length - 1, ?_⟩
    simp only [List.length_append, u32BEbytes_length]
    omega
  obtain ⟨f, hf⟩ := hfuel
  rw [hf, show (8 : Nat) = pngSignature.length from rfl,
    extractLoop_steps pre pngSignature
      (u32BEbytes c.data.length ++ (flipped
        ++ (u32BEbytes (crc32 (c.name ++ c.data)) ++ serializeFrom post))) [] (f + 1)
      hmid' (fun _ => by
        rcases List.eq_nil_or_concat pre with h | hne
        · exact Or.inl h
        · refine Or.inr ?_
          have hpne : pre ≠ [] := by
            rcases hne with ⟨p0, e0, rfl⟩
            simp
          rwa [List.head?_append_of_ne_nil _ hpne] at hhead)]
  have hshape : flipped ++ (u32BEbytes (crc32 (c.name ++ c.data)) ++ serializeFrom post)
      = flipped.take 4 ++ (flipped.drop 4
        ++ (u32BEbytes (crc32 (c.name ++ c.data)) ++ serializeFrom post)) := by
    conv_rhs => rw [← List.append_assoc, ← hsplit]
  rw [hshape, extractLoop_read (pngSignature ++ serializeFrom pre) c.data.length
    (flipped.take 4) (flipped.drop 4) (crc32 (c.name ++ c.data)) (serializeFrom post)
    ([] ++ pre) f hcv.2.2.2 hdrop4 htake4 (crc32_lt _) hfirst htype_ne]
  rw [if_pos hcrcne]

/-- Witness for the amended C2: flipping bit 0 of the single payload byte
of a tEXt chunk yields ChecksumMismatch naming tEXt. -/
theorem C2_checksum_sensitivity_witness :
    extractChunks (pngSignature ++ (serializeFrom [⟨iHDRName, []⟩]
        ++ (u32BEbytes (⟨tEXtName, [65]⟩ : ChunkData).data.length
          ++ (flipBit ((⟨tEXtName, [65]⟩ : ChunkData).name
                ++ (⟨tEXtName, [65]⟩ : ChunkData).data) 4 0
            ++ (u32BEbytes (crc32 ((⟨tEXtName, [65]⟩ : ChunkData).name
                ++ (⟨tEXtName, [65]⟩ : ChunkData).data))
              ++ serializeFrom [⟨iENDName, []⟩])))))
      = .error (.checksumMismatch ((flipBit ((⟨tEXtName, [65]⟩ : ChunkData).name
          ++ (⟨tEXtName, [65]⟩ : ChunkData).data) 4 0).take 4)) :=
  C2_checksum_sensitivity [⟨iHDRName, []⟩] ⟨tEXtName, [65]⟩ [⟨iENDName, []⟩] 4 0
    (by decide) (by decide) (by decide) (fun h => absurd h (by decide))

/-- Witness for C9: one IHDR chunk, declared IEND length 7, garbage after
the IEND type. -/
theorem C9_iend_crc_ignored_witness :
    extractChunks (pngSignature
        ++ (serializeFrom [⟨iHDRName, []⟩] ++ (u32BEbytes 7 ++ (iENDName ++ [1, 2, 3]))))
      = .ok ([⟨iHDRName, []⟩] ++ [⟨iENDName, []⟩]) :=
  C9_iend_crc_ignored [⟨iHDRName, []⟩] 7 [1, 2, 3] (by decide) (by decide) (by decide)

/-! ## Clear-sweep lemmas -/

theorem clearLoop_eq : ∀ (i : Nat) (l : List ChunkData), i < l.length →
    clearLoop l i = (l.take (i + 1)).filter (fun c => keepName c.name) ++ l.drop (i + 1) := by
  intro i
  induction i with
  | zero =>
    intro l hl
    match l, hl with
    | c :: rest, _ =>
      show clearBody (c :: rest) 0 = _
      unfold clearBody
      simp only [List.get?_eq_getElem?, List.getElem?_cons_zero]
      by_cases hk : keepName c.name
      · simp [hk, List.filter]
      · simp only [hk, Bool.false_eq_true, if_false]
        simp [List.eraseIdx, List.filter, hk]
  | succ i ih =>
    intro l hl
    show clearLoop (clearBody l (i + 1)) i = _
    unfold clearBody
    have hget : l.get? (i + 1) = some l[i + 1] := by
      rw [List.get?_eq_getElem?, List.getElem?_eq_getElem hl]
    rw [hget]
    show clearLoop (if keepName l[i + 1].name then l else l.eraseIdx (i + 1)) i = _
    by_cases hk : keepName l[i + 1].name
    · rw [if_pos hk, ih l (by omega)]
      have htake : l.take (i + 1 + 1) = l.take (i + 1) ++ [l[i + 1]] := by
        rw [List.take_succ, List.getElem?_eq_getElem hl]
        rfl
      have hdrop : l.drop (i + 1) = l[i + 1] :: l.drop (i + 1 + 1) :=
        List.drop_eq_getElem_cons hl
      rw [htake, hdrop, List.filter_append]
      simp [hk]
    · rw [if_neg hk]
      have herase : l.eraseIdx (i + 1) = l.take (i + 1) ++ l.drop (i + 1 + 1) :=
        List.eraseIdx_eq_take_drop_succ l (i + 1)
      have hlen' : i < (l.eraseIdx (i + 1)).length := by
        rw [herase]
        simp only [List.length_append, List.length_take, List.length_drop]
        omega
      rw [ih _ hlen', herase]
      have hlentake : (l.take (i + 1)).length = i + 1 := by
        rw [List.length_take]
        omega
      rw [List.take_left' hlentake, List.drop_left' hlentake]
      have htake : l.take (i + 1 + 1) = l.take (i + 1) ++ [l[i + 1]] := by
        rw [List.take_succ, List.getElem?_eq_getElem hl]
        rfl
      rw [htake, List.filter_append]
      simp [hk]

theorem clearChunks_eq (l : List ChunkData) (x : ChunkData) (hx : l.getLast? = some x) :
    clearChunks l = .ok (l.dropLast.filter (fun c => keepName c.name) ++ [x]) := by
  have hdec := List.dropLast_append_getLast? _ hx
  have hne : l ≠ [] := by
    intro hnil
    rw [hnil] at hx
    simp at hx
  have hpos : 0 < l.length := List.length_pos.mpr hne
  unfold clearChunks
  rw [if_neg (by omega)]
  by_cases h1 : l.length = 1
  · rw [if_pos h1]
    have hdl : l.dropLast = [] := by
      rw [List.dropLast_eq_take, h1]
      rfl
    have hlx : l = [x] := by rw [← hdec, hdl]; rfl
    rw [hdl, hlx]
    rfl
  · rw [if_neg h1]
    have hlt : l.length - 2 < l.length := by omega
    have hdrop : l.drop (l.length - 1) = [x] := by
      have h2 : l.dropLast.length = l.length - 1 := List.length_dropLast l
      calc l.drop (l.length - 1) = (l.dropLast ++ [x]).drop (l.length - 1) := by rw [hdec]
      _ = [x] := List.drop_left' h2
    rw [clearLoop_eq (l.length - 2) l hlt,
      show l.length - 2 + 1 = l.length - 1 from by omega,
      ← List.dropLast_eq_take, hdrop]

theorem insertMetadata_clear (l : List ChunkData) (x : ChunkData)
    (hx : l.getLast? = some x) :
    insertMetadata l ⟨none, none, true⟩
      = .ok (l.dropLast.filter (fun c => keepName c.name) ++ [x]) := by
  show (clearChunks l).bind _ = _
  rw [clearChunks_eq l x hx]
  rfl

/-- C3 counterexample: the clear sweep of insertMetadata never inspects
the last chunk, so a tEXt chunk in final position survives a clear
(refuting that exactly the non-IHDR/IDAT/IEND chunks are removed), and
it does inspect index 0, removing a tEXt chunk there (refuting that
index 0 is never inspected). -/
theorem C3_counterexample :
    insertMetadata [⟨iHDRName, []⟩, ⟨tEXtName, [75, 0, 86]⟩] ⟨none, none, true⟩
        = .ok [⟨iHDRName, []⟩, ⟨tEXtName, [75, 0, 86]⟩] ∧
      insertMetadata [⟨tEXtName, [75, 0, 86]⟩, ⟨iENDName, []⟩] ⟨none, none, true⟩
        = .ok [⟨iENDName, []⟩] := by
  decide

theorem keepName_ne {n : Str} (h : keepName n = true) :
    n ≠ tEXtName ∧ n ≠ pHYsName := by
  unfold keepName at h
  simp only [Bool.or_eq_true, beq_iff_eq] at h
  rcases h with (h | h) | h <;> subst h <;> exact ⟨by decide, by decide⟩

theorem readFold_flags (l : List ChunkData) : ∀ r0 : PngMetadataOut,
    (∀ c ∈ l, c.name ≠ tEXtName ∧ c.name ≠ pHYsName) →
    ∃ fl, l.foldlM readChunkMeta r0 = .ok ⟨r0.tEXt, r0.pHYs, fl⟩ := by
  induction l with
  | nil => intro r0 _; exact ⟨r0.flags, rfl⟩
  | cons c rest ih =>
    intro r0 hn
    have hc := hn c (by simp)
    have hstep : readChunkMeta r0 c = .ok ⟨r0.tEXt, r0.pHYs, addFlag r0.flags c.name⟩ := by
      unfold readChunkMeta
      rw [if_neg hc.1, if_neg hc.2]
    obtain ⟨fl, hfl⟩ := ih ⟨r0.tEXt, r0.pHYs, addFlag r0.flags c.name⟩
      (fun d hd => hn d (by simp [hd]))
    refine ⟨fl, ?_⟩
    rw [show List.foldlM readChunkMeta r0 (c :: rest)
      = (readChunkMeta r0 c).bind (fun r1 => List.foldlM readChunkMeta r1 rest) from rfl,
      hstep]
    exact hfl

/-- C3 amended: the clear sweep scans from index length - 2 down to 0 --
it never inspects the LAST chunk (always IEND by the read-side
invariant), whose survival is therefore implicit, while index 0 is
inspected and kept only through the explicit IHDR case -- and removes
exactly the chunks with type outside IHDR/IDAT/IEND among indices
0..length-2.  Consequently writeMetadata(bytes, clear) keeps exactly
the IHDR/IDAT/IEND chunks byte-identically, and readMetadata of the
result has no tEXt mapping and no pHYs record. -/
theorem C3_clear_semantics :
    (∀ (l : List ChunkData) (x : ChunkData), l.getLast? = some x →
      insertMetadata l ⟨none, none, true⟩
        = .ok (l.dropLast.filter (fun c => keepName c.name) ++ [x])) ∧
    (∀ (bytes : Bytes) (cs : List ChunkData),
      extractChunks bytes = .ok cs → validChunkSeq cs →
      ∃ out, writeMetadata bytes ⟨none, none, true⟩ = .ok out ∧
        extractChunks out = .ok (cs.filter (fun c => keepName c.name)) ∧
        ∃ r, readMetadata out = .ok r ∧ r.tEXt = none ∧ r.pHYs = none) := by
  refine ⟨insertMetadata_clear, ?_⟩
  intro bytes cs hex hv
  obtain ⟨mids, hcs, hmne, hhead, hmids⟩ := validSeq_decomp hv
  have hlast : cs.getLast? = some ⟨iENDName, []⟩ := hv.2.2.1
  have hdl : cs.dropLast = mids := by rw [hcs, List.dropLast_concat]
  set cs2 := mids.filter (fun c => keepName c.name) ++ [(⟨iENDName, []⟩ : ChunkData)]
    with hcs2
  have hins : insertMetadata cs ⟨none, none, true⟩ = .ok cs2 := by
    rw [insertMetadata_clear cs ⟨iENDName, []⟩ hlast, hdl]
  have hfilter : cs.filter (fun c => keepName c.name) = cs2 := by
    rw [hcs, List.filter_append]
    simp [hcs2, keepName, iENDName]
  obtain ⟨m0, mrest, hm0⟩ : ∃ m0 mrest, mids = m0 :: mrest := by
    match mids, hmne with
    | m0 :: mrest, _ => exact ⟨m0, mrest, rfl⟩
  have hm0name : m0.name = iHDRName := by
    rw [hm0] at hhead
    simp only [List.head?_cons, Option.map_some'] at hhead
    exact Option.some.inj hhead
  have hm0keep : keepName m0.name = true := by
    rw [hm0name]
    decide
  have hv2 : validChunkSeq cs2 := by
    refine ⟨?_, ?_, ?_, ?_⟩
    · intro c hc
      rw [hcs2] at hc
      rcases List.mem_append.mp hc with h | h
      · exact (hmids c (List.mem_of_mem_filter h)).1
      · simp only [List.mem_singleton] at h
        subst h
        decide
    · intro c hc
      rw [hcs2, List.dropLast_concat] at hc
      exact (hmids c (List.mem_of_mem_filter hc)).2
    · rw [hcs2, List.getLast?_concat]
    · rw [hcs2, hm0, List.filter_cons, hm0keep]
      simp [hm0name]
  refine ⟨encodeChunks cs2, ?_, ?_, ?_⟩
  · show (extractChunks bytes).bind _ = _
    rw [hex]
    show (insertMetadata cs ⟨none, none, true⟩).bind _ = _
    rw [hins]
    rfl
  · rw [hfilter]
    exact extract_encode_id hv2
  · unfold readMetadata
    rw [extract_encode_id hv2]
    have hflags : ∀ c ∈ cs2, c.name ≠ tEXtName ∧ c.name ≠ pHYsName := by
      intro c hc
      rw [hcs2] at hc
      rcases List.mem_append.mp hc with h | h
      · exact keepName_ne (List.mem_filter.mp h).2
      · simp only [List.mem_singleton] at h
        subst h
        exact ⟨by decide, by decide⟩
    obtain ⟨fl, hfl⟩ := readFold_flags cs2 ⟨none, none, []⟩ hflags
    exact ⟨⟨none, none, fl⟩, hfl, rfl, rfl⟩

/-- Witness for the amended C3 at the two-chunk demo PNG. -/
theorem C3_clear_semantics_witness :
    ∃ out, writeMetadata (encodeChunks demoPng) ⟨none, none, true⟩ = .ok out ∧
      extractChunks out = .ok (demoPng.filter (fun c => keepName c.name)) ∧
      ∃ r, readMetadata out = .ok r ∧ r.tEXt = none ∧ r.pHYs = none :=
  C3_clear_semantics.2 (encodeChunks demoPng) demoPng
    (extract_encode_id (by decide)) (by decide)

/-! ## Metadata insertion lemmas -/

theorem textEncode_entryOk {e : Str × Str} (h : entryOk e) :
    textEncode e.1 e.2 tEXtName = .ok (encEntry e) := by
  obtain ⟨h1, h79, hk, ht⟩ := h
  exact textEncode_ok tEXtName h1 h79 (fun c hc => (hk c hc).1) (fun c hc => (ht c hc).1)
    (fun c hc => (hk c hc).2) (fun c hc => (ht c hc).2)

theorem insertBeforeLast_concat (a : List ChunkData) (x c : ChunkData) :
    insertBeforeLast (a ++ [x]) c = (a ++ [c]) ++ [x] := by
  unfold insertBeforeLast
  have hlen : (a ++ [x]).length - 1 = a.length := by simp
  rw [hlen, List.take_left' rfl, List.drop_left' rfl]
  simp

theorem foldl_insert_entries (entries : List (Str × Str)) :
    ∀ (A : List ChunkData) (x : ChunkData), (∀ e ∈ entries, entryOk e) →
    entries.foldlM (fun acc kv => do
        let tc ← textEncode kv.1 kv.2 tEXtName
        pure (insertBeforeLast acc tc)) (A ++ [x])
      = .ok (A ++ entries.map encEntry ++ [x]) := by
  induction entries with
  | nil =>
    intro A x _
    show Except.ok (A ++ [x]) = _
    simp
  | cons e rest ih =>
    intro A x hok
    have henc := textEncode_entryOk (hok e (by simp))
    rw [show List.foldlM (fun acc kv => do
        let tc ← textEncode kv.1 kv.2 tEXtName
        pure (insertBeforeLast acc tc)) (A ++ [x]) (e :: rest)
      = ((textEncode e.1 e.2 tEXtName) >>= fun tc => pure (insertBeforeLast (A ++ [x]) tc))
          >>= fun b2 => List.foldlM (fun acc kv => do
            let tc ← textEncode kv.1 kv.2 tEXtName
            pure (insertBeforeLast acc tc)) b2 rest from rfl, henc]
    show List.foldlM (fun acc kv => do
        let tc ← textEncode kv.1 kv.2 tEXtName
        pure (insertBeforeLast acc tc)) (insertBeforeLast (A ++ [x]) (encEntry e)) rest
      = Except.ok (A ++ (e :: rest).map encEntry ++ [x])
    rw [insertBeforeLast_concat, ih (A ++ [encEntry e]) x (fun d hd => hok d (by simp [hd]))]
    simp

theorem replaceFirstPhys_eq (l : List ChunkData) (d : Bytes) :
    l.any (fun c => c.name == pHYsName) = true →
    replaceFirstPhys l d
      = l.set (l.findIdx (fun c => c.name == pHYsName)) ⟨pHYsName, d⟩ := by
  induction l with
  | nil => intro h; simp at h
  | cons c rest ih =>
    intro h
    by_cases hc : c.name = pHYsName
    · unfold replaceFirstPhys
      rw [if_pos hc, List.findIdx_cons]
      simp only [hc, beq_self_eq_true, cond_true]
      rw [List.set_cons_zero]
    · unfold replaceFirstPhys
      rw [if_neg hc, List.findIdx_cons]
      have hbeq : (c.name == pHYsName) = false := by
        simp [hc]
      rw [hbeq]
      simp only [cond_false]
      rw [List.set_cons_succ]
      have hrest : rest.any (fun c => c.name == pHYsName) = true := by
        simp only [List.any_cons, hbeq, Bool.false_or] at h
        exact h
      rw [ih hrest]

theorem insertMetadata_text_aux (A : List ChunkData) (x : ChunkData)
    (entries : List (Str × Str)) (hok : ∀ e ∈ entries, entryOk e) :
    insertMetadata (A ++ [x]) ⟨some entries, none, false⟩
      = .ok (A ++ entries.map encEntry ++ [x]) := by
  show (entries.foldlM (fun acc kv => do
      let tc ← textEncode kv.1 kv.2 tEXtName
      pure (insertBeforeLast acc tc)) (A ++ [x])) >>= (fun c2 => pure c2) = _
  rw [foldl_insert_entries entries A x hok]
  rfl

theorem insertMetadata_phys_aux (A : List ChunkData) (x : ChunkData)
    (entries : List (Str × Str)) (p : PhysSpec) (hok : ∀ e ∈ entries, entryOk e) :
    insertMetadata (A ++ [x]) ⟨some entries, some p, false⟩
      = .ok (
        if (A ++ entries.map encEntry ++ [x]).any (fun c => c.name == pHYsName)
        then (A ++ entries.map encEntry ++ [x]).set
          ((A ++ entries.map encEntry ++ [x]).findIdx (fun c => c.name == pHYsName))
          ⟨pHYsName, physPayload p⟩
        else (A ++ entries.map encEntry ++ [x]).take 1
          ++ ⟨pHYsName, physPayload p⟩ :: (A ++ entries.map encEntry ++ [x]).drop 1) := by
  show (entries.foldlM (fun acc kv => do
      let tc ← textEncode kv.1 kv.2 tEXtName
      pure (insertBeforeLast acc tc)) (A ++ [x])) >>= (fun c2 =>
        if c2.any (fun c => c.name == pHYsName) then
          pure (replaceFirstPhys c2 (physPayload p))
        else pure (c2.take 1 ++ ⟨pHYsName, physPayload p⟩ :: c2.drop 1)) = _
  rw [foldl_insert_entries entries A x hok]
  show (if (A ++ entries.map encEntry ++ [x]).any (fun c => c.name == pHYsName) then
      pure (replaceFirstPhys (A ++ entries.map encEntry ++ [x]) (physPayload p))
    else pure ((A ++ entries.map encEntry ++ [x]).take 1
      ++ ⟨pHYsName, physPayload p⟩ :: (A ++ entries.map encEntry ++ [x]).drop 1)) = _
  by_cases hany : (A ++ entries.map encEntry ++ [x]).any
      (fun c => c.name == pHYsName) = true
  · rw [if_pos hany, if_pos hany, replaceFirstPhys_eq _ _ hany]
    rfl
  · rw [if_neg hany, if_neg hany]
    rfl

/-- C7: without the clear flag, insertMetadata inserts each supplied text
entry in mapping order as an encoded tEXt chunk immediately before the
last chunk, and, when a physical-resolution record is supplied, builds
the 9-byte payload (x and y big-endian u32 at offsets 0 and 4, unit
byte at offset 8) and overwrites the payload of the first existing pHYs
chunk, or inserts a new pHYs chunk at index 1 when none exists; no
other chunk is added, removed or reordered. -/
theorem C7_insert_no_clear :
    (∀ (l : List ChunkData) (entries : List (Str × Str)) (x : ChunkData),
      l.getLast? = some x → (∀ e ∈ entries, entryOk e) →
      insertMetadata l ⟨some entries, none, false⟩
        = .ok (l.dropLast ++ entries.map encEntry ++ [x])) ∧
    (∀ (l : List ChunkData) (entries : List (Str × Str)) (x : ChunkData) (p : PhysSpec),
      l.getLast? = some x → (∀ e ∈ entries, entryOk e) →
      insertMetadata l ⟨some entries, some p, false⟩
        = .ok (
          if (l.dropLast ++ entries.map encEntry ++ [x]).any (fun c => c.name == pHYsName)
          then (l.dropLast ++ entries.map encEntry ++ [x]).set
            ((l.dropLast ++ entries.map encEntry ++ [x]).findIdx
              (fun c => c.name == pHYsName)) ⟨pHYsName, physPayload p⟩
          else (l.dropLast ++ entries.map encEntry ++ [x]).take 1
            ++ ⟨pHYsName, physPayload p⟩
              :: (l.dropLast ++ entries.map encEntry ++ [x]).drop 1)) := by
  constructor
  · intro l entries x hx hok
    have hdec := List.dropLast_append_getLast? _ hx
    conv_lhs => rw [← hdec]
    exact insertMetadata_text_aux l.dropLast x entries hok
  · intro l entries x p hx hok
    have hdec := List.dropLast_append_getLast? _ hx
    conv_lhs => rw [← hdec]
    exact insertMetadata_phys_aux l.dropLast x entries p hok

/-- Witness for C7: inserting one entry into the demo PNG, without and
with a pHYs record. -/
theorem C7_insert_no_clear_witness :
    insertMetadata demoPng ⟨some [([65], [66])], none, false⟩
      = .ok (demoPng.dropLast ++ ([([65], [66])] : List (Str × Str)).map encEntry
        ++ [⟨iENDName, []⟩]) :=
  C7_insert_no_clear.1 demoPng [([65], [66])] ⟨iENDName, []⟩ (by decide) (by decide)

/-! ## Metadata read-back lemmas -/

/-- The keyword "Title" as code units. -/
def titleKw : Str := [84, 105, 116, 108, 101]

/-- The metadata record writing tEXt entry Title = "x". -/
def mdTitle : MetadataSpec := ⟨some [(titleKw, [120])], none, false⟩

theorem find?_append_of_none {α : Type} (p : α → Bool) (l1 l2 : List α)
    (h : l1.find? p = none) : (l1 ++ l2).find? p = l2.find? p := by
  induction l1 with
  | nil => simp
  | cons a rest ih =>
    by_cases ha : p a
    · rw [List.find?_cons_of_pos rest ha] at h
      simp at h
    · rw [List.cons_append, List.find?_cons_of_neg _ ha]
      rw [List.find?_cons_of_neg _ ha] at h
      exact ih h

theorem find_map_overwrite (m : List (Str × Str)) (k v : Str)
    (h : m.any (fun p => p.1 == k) = true) :
    ((m.map (fun p => if p.1 = k then (k, v) else p)).find? (fun p => p.1 == k)).map
      (fun p => p.2) = some v := by
  induction m with
  | nil => simp at h
  | cons q rest ih =>
    by_cases hq : q.1 = k
    · rw [List.map_cons, if_pos hq,
        @List.find?_cons_of_pos (Str × Str) (fun p => p.1 == k) (k, v)
          (List.map (fun p => if p.1 = k then (k, v) else p) rest) (by simp)]
      rfl
    · rw [List.map_cons, if_neg hq,
        @List.find?_cons_of_neg (Str × Str) (fun p => p.1 == k) q
          (List.map (fun p => if p.1 = k then (k, v) else p) rest) (by simp [hq])]
      have hrest : rest.any (fun p => p.1 == k) = true := by
        rw [List.any_cons] at h
        rcases (Bool.or_eq_true _ _).mp h with h1 | h1
        · exact absurd (by simpa using h1) hq
        · exact h1
      exact ih hrest

theorem find_setEntry (m : List (Str × Str)) (k v : Str) :
    ((setEntry m k v).find? (fun p => p.1 == k)).map (fun p => p.2) = some v := by
  unfold setEntry
  by_cases h : m.any (fun p => p.1 == k) = true
  · rw [if_pos h]
    exact find_map_overwrite m k v h
  · rw [if_neg h]
    have hnone : m.find? (fun p => p.1 == k) = none := by
      rw [List.find?_eq_none]
      intro x hx hpred
      exact h (List.any_eq_true.mpr ⟨x, hx, hpred⟩)
    rw [find?_append_of_none _ _ _ hnone,
      @List.find?_cons_of_pos (Str × Str) (fun p => p.1 == k) (k, v) [] (by simp)]
    rfl

theorem readFold_ok (l : List ChunkData) : ∀ r0 : PngMetadataOut,
    (∀ c ∈ l, c.name = tEXtName → textDecodeOk c.data = true) →
    ∃ r1, l.foldlM readChunkMeta r0 = .ok r1 := by
  induction l with
  | nil => intro r0 _; exact ⟨r0, rfl⟩
  | cons c rest ih =>
    intro r0 hdec
    have hstep : ∃ r1, readChunkMeta r0 c = .ok r1 := by
      unfold readChunkMeta
      by_cases ht : c.name = tEXtName
      · rw [if_pos ht]
        have hok := hdec c (by simp) ht
        unfold textDecodeOk at hok
        match hh : textDecode c.data with
        | .ok kt => exact ⟨_, rfl⟩
        | .error e => rw [hh] at hok; simp at hok
      · rw [if_neg ht]
        by_cases hp : c.name = pHYsName
        · rw [if_pos hp]; exact ⟨_, rfl⟩
        · rw [if_neg hp]; exact ⟨_, rfl⟩
    obtain ⟨r1, hr1⟩ := hstep
    obtain ⟨r2, hr2⟩ := ih r1 (fun d hd => hdec d (by simp [hd]))
    refine ⟨r2, ?_⟩
    rw [show List.foldlM readChunkMeta r0 (c :: rest)
      = (readChunkMeta r0 c) >>= (fun r => List.foldlM readChunkMeta r rest) from rfl,
      hr1]
    exact hr2

/-- C8 counterexample: a well-formed PNG containing a tEXt chunk whose
payload is two 0x00 bytes makes the write-then-read pipeline fail with
InvalidCharacter instead of yielding a mapping with Title = "x":
the claim does not hold regardless of the tEXt chunks already present. -/
theorem C8_counterexample :
    extractChunks (encodeChunks [⟨iHDRName, []⟩, ⟨tEXtName, [0, 0]⟩, ⟨iENDName, []⟩])
        = .ok [⟨iHDRName, []⟩, ⟨tEXtName, [0, 0]⟩, ⟨iENDName, []⟩] ∧
      (do
        let out ← writeMetadata
          (encodeChunks [⟨iHDRName, []⟩, ⟨tEXtName, [0, 0]⟩, ⟨iENDName, []⟩]) mdTitle
        readMetadata out) = .error .invalidCharacter := by
  decide

/-- C8 amended: for every well-formed PNG whose existing tEXt chunks all
have decodable payloads, writing the Title = "x" entry and reading the
result back yields a metadata record whose tEXt lookup at "Title" is
"x", regardless of any tEXt chunks already present (later entries for
the same keyword overwrite earlier ones). -/
theorem C8_title_symmetry (bytes : Bytes) (cs : List ChunkData)
    (hex : extractChunks bytes = .ok cs) (hv : validChunkSeq cs)
    (hdec : ∀ c ∈ cs, c.name = tEXtName → textDecodeOk c.data = true) :
    ∃ out r, writeMetadata bytes mdTitle = .ok out ∧ readMetadata out = .ok r ∧
      tEXtLookup r titleKw = some [120] := by
  obtain ⟨mids, hcs, hmne, hhead, hmids⟩ := validSeq_decomp hv
  have hlast : cs.getLast? = some ⟨iENDName, []⟩ := hv.2.2.1
  have hdl : cs.dropLast = mids := by rw [hcs, List.dropLast_concat]
  set title := encEntry (titleKw, [120]) with htitle
  set cs2 := mids ++ [title] ++ [(⟨iENDName, []⟩ : ChunkData)] with hcs2
  have hins : insertMetadata cs mdTitle = .ok cs2 := by
    have hmap := C7_insert_no_clear.1 cs [(titleKw, [120])] ⟨iENDName, []⟩ hlast
      (by decide)
    rw [hdl] at hmap
    exact hmap
  obtain ⟨m0, mrest, hm0⟩ : ∃ m0 mrest, mids = m0 :: mrest := by
    match mids, hmne with
    | m0 :: mrest, _ => exact ⟨m0, mrest, rfl⟩
  have hm0name : m0.name = iHDRName := by
    rw [hm0] at hhead
    simp only [List.head?_cons, Option.map_some'] at hhead
    exact Option.some.inj hhead
  have hv2 : validChunkSeq cs2 := by
    refine ⟨?_, ?_, ?_, ?_⟩
    · intro c hc
      rw [hcs2] at hc
      rcases List.mem_append.mp hc with h | h
      · rcases List.mem_append.mp h with h2 | h2
        · exact (hmids c h2).1
        · simp only [List.mem_singleton] at h2
          subst h2
          decide
      · simp only [List.mem_singleton] at h
        subst h
        decide
    · intro c hc
      rw [hcs2, List.dropLast_concat] at hc
      rcases List.mem_append.mp hc with h | h
      · exact (hmids c h).2
      · simp only [List.mem_singleton] at h
        subst h
        decide
    · rw [hcs2, List.getLast?_concat]
    · rw [hcs2, hm0]
      simp [hm0name]
  have hread : readMetadata (encodeChunks cs2)
      = cs2.foldlM readChunkMeta ⟨none, none, []⟩ := by
    unfold readMetadata
    rw [extract_encode_id hv2]
  obtain ⟨r1, hr1⟩ := readFold_ok mids ⟨none, none, []⟩ (fun c hc hn =>
    hdec c (by rw [hcs]; exact List.mem_append_left _ hc) hn)
  have htd : textDecode title.data = .ok (titleKw, [120]) := by decide
  have hstep1 : readChunkMeta r1 title
      = .ok ⟨some (setEntry (r1.tEXt.getD []) titleKw [120]), r1.pHYs, r1.flags⟩ := by
    unfold readChunkMeta
    rw [if_pos (show title.name = tEXtName from rfl), htd]
  have hstep2 : ∀ r : PngMetadataOut, readChunkMeta r ⟨iENDName, []⟩
      = .ok ⟨r.tEXt, r.pHYs, addFlag r.flags iENDName⟩ := by
    intro r
    unfold readChunkMeta
    rw [if_neg (by decide), if_neg (by decide)]
  have hfold : cs2.foldlM readChunkMeta ⟨none, none, []⟩
      = .ok ⟨some (setEntry (r1.tEXt.getD []) titleKw [120]), r1.pHYs,
          addFlag r1.flags iENDName⟩ := by
    rw [hcs2, show (mids ++ [title]) ++ [(⟨iENDName, []⟩ : ChunkData)]
      = mids ++ ([title] ++ [⟨iENDName, []⟩]) from by simp,
      List.foldlM_append, hr1]
    show ([title, ⟨iENDName, []⟩] : List ChunkData).foldlM readChunkMeta r1 = _
    rw [show ([title, (⟨iENDName, []⟩ : ChunkData)] : List ChunkData).foldlM
        readChunkMeta r1
      = (readChunkMeta r1 title) >>= (fun r2 =>
          (readChunkMeta r2 ⟨iENDName, []⟩) >>= (fun r3 => pure r3)) from rfl,
      hstep1]
    show (readChunkMeta _ ⟨iENDName, []⟩) >>= (fun r3 => pure r3) = _
    rw [hstep2]
    rfl
  refine ⟨encodeChunks cs2,
    ⟨some (setEntry (r1.tEXt.getD []) titleKw [120]), r1.pHYs,
      addFlag r1.flags iENDName⟩, ?_, ?_, ?_⟩
  · unfold writeMetadata
    rw [hex]
    show (insertMetadata cs mdTitle) >>= (fun chunks2 => pure (encodeChunks chunks2)) = _
    rw [hins]
    rfl
  · rw [hread, hfold]
  · unfold tEXtLookup
    show ((setEntry (r1.tEXt.getD []) titleKw [120]).find?
      (fun p => p.1 == titleKw)).map (fun p => p.2) = some [120]
    exact find_setEntry (r1.tEXt.getD []) titleKw [120]

/-- Witness for the amended C8 at the two-chunk demo PNG. -/
theorem C8_title_symmetry_witness :
    ∃ out r, writeMetadata (encodeChunks demoPng) mdTitle = .ok out ∧
      readMetadata out = .ok r ∧ tEXtLookup r titleKw = some [120] :=
  C8_title_symmetry (encodeChunks demoPng) demoPng (extract_encode_id (by decide))
    (by decide) (by decide)

end PngMeta
